import Mathlib

/-!
Verification development for the pdf-processor document pipeline.

The definitions below are a shallow embedding of the Python sources:
  * `app/services/document_ai.py`  (chunked text extraction, image triage)
  * `app/services/report_parser.py` (field extraction)
  * `app/models/pdf.py`            (record shapes)
  * `app/exceptions.py`            (error taxonomy)

Machine floats that are only carried through unchanged (page dimensions)
are modelled as integers; PDF byte buffers are modelled as lists of bytes;
the external Document AI engine is modelled as an oracle from a chunk's
page range to an engine response, and the PyMuPDF document container is
modelled by its observable content (page count, per-page xref lists, and
an extraction oracle for image objects).
-/

/-! ### Data model: `app/models/pdf.py` -/

/-- Model of `PageInfo` from `app/models/pdf.py`.  The `width`/`height`
floats are opaque pass-through values in the source and are modelled as
integers. -/
structure PageInfo where
  page_number : Nat
  width : Int
  height : Int
  text : String
  detected_languages : List String
deriving DecidableEq, Repr

/-- Model of `ImageInfo` from `app/models/pdf.py`. -/
structure ImageInfo where
  page_number : Nat
  gcs_uri : String
  width : Nat
  height : Nat
  mime_type : String
deriving DecidableEq, Repr

/-- Model of `exceptions.py`: the only exception raised by
`DocumentAIService` is `DocumentAIError` (wrapping a message). -/
inductive PdfError where
  | documentAIError (message : String)
deriving DecidableEq, Repr

/-! ### Engine response model: the `documentai` protobuf shapes used by
`DocumentAIService._process_chunk` / `_extract_page_text`. -/

/-- Model of `documentai.Document.Page.Layout.TextAnchor.TextSegment`.
In the source, `int(segment.start_index) if segment.start_index else 0`
maps an unset/zero index to 0, which on naturals is the identity. -/
structure TextSegment where
  start_index : Nat
  end_index : Nat
deriving DecidableEq, Repr

/-- Model of a detected language entry (`lang.language_code`). -/
structure DetectedLanguage where
  language_code : String
deriving DecidableEq, Repr

/-- Model of one `documentai.Document.Page`.  `layout` is `none` when the
protobuf `page.layout` is falsy, and the inner option is `none` when
`page.layout.text_anchor` is falsy; `dimension` is `none` when
`page.dimension` is falsy. -/
structure EnginePage where
  layout : Option (Option (List TextSegment))
  detected_languages : List DetectedLanguage
  dimension : Option (Int × Int)
deriving DecidableEq, Repr

/-- Model of `result.document` returned by the engine for one chunk. -/
structure EngineDocument where
  text : String
  pages : List EnginePage
deriving DecidableEq, Repr

/-- The external recognition engine, modelled as an oracle from a chunk's
page range (start page, number of pages — which determines the chunk's
sub-document bytes) to either an exception message or a response. -/
def Engine : Type := Nat → Nat → Except String EngineDocument

/-- Python string slicing `full_text[start:end]` (non-negative indices). -/
def pySliceStr (s : String) (a b : Nat) : String :=
  String.mk ((s.toList.drop a).take (b - a))

/-- Model of `DocumentAIService._extract_page_text`. -/
def extractPageText (full_text : String) (page : EnginePage) : String :=
  match page.layout with
  | none => ""
  | some none => ""
  | some (some segments) =>
    String.join (segments.map (fun seg => pySliceStr full_text seg.start_index seg.end_index))

/-- The `PageInfo` built for the page at (0-based) enumeration index `i`
within a chunk, mirroring the loop body of `_process_chunk`
(`enumerate(document.pages, start=1)` yields `i + 1` here). -/
def mkPageInfo (full_text : String) (page_offset i : Nat) (page : EnginePage) : PageInfo :=
  { page_number := page_offset + (i + 1)
    width := match page.dimension with | some d => d.1 | none => 0
    height := match page.dimension with | some d => d.2 | none => 0
    text := extractPageText full_text page
    detected_languages :=
      (page.detected_languages.filter (fun l => l.language_code ≠ "")).map
        (fun l => l.language_code) }

/-- The `pages` list built by `_process_chunk`'s `for i, page in
enumerate(document.pages, start=1)` loop; `i` is the 0-based index. -/
def buildPages (full_text : String) (page_offset : Nat) : Nat → List EnginePage → List PageInfo
  | _, [] => []
  | i, p :: rest => mkPageInfo full_text page_offset i p :: buildPages full_text page_offset (i + 1) rest

/-- Model of `DocumentAIService._process_chunk`: submit the chunk
`[startPage, startPage + pageCount)` to the engine; any engine exception
is re-raised as `DocumentAIError`. -/
def processChunk (engine : Engine) (startPage pageCount page_offset : Nat) :
    Except PdfError (String × List PageInfo) :=
  match engine startPage pageCount with
  | .error exc => .error (.documentAIError ("Document AI processing failed: " ++ exc))
  | .ok document => .ok (document.text, buildPages document.text page_offset 0 document.pages)

/-- `MAX_PAGES_PER_REQUEST` from `document_ai.py`. -/
def MAX_PAGES_PER_REQUEST : Nat := 15

/-- The start indices `range(0, total, step)` of the chunk loop, for a
positive `step`; the fuel argument (`total` at the top level) bounds the
iteration count, since each iteration advances `start` by `step ≥ 1`. -/
def chunkStartsGo (total step : Nat) : Nat → Nat → List Nat
  | 0, _ => []
  | fuel + 1, start =>
    if start < total then start :: chunkStartsGo total step fuel (start + step) else []

/-- `range(0, total, step)`. -/
def chunkStarts (total step : Nat) : List Nat :=
  chunkStartsGo total step total 0

/-- Number of pages in the chunk starting at `start`:
`min(start + step, total) - start` (the loop computes `end` this way). -/
def chunkLen (total step start : Nat) : Nat :=
  min (start + step) total - start

/-- The chunk loop of `process_pdf`: process each chunk in order,
aborting at the first failure, accumulating the chunk texts and the
per-page results.  The chunk's `page_offset` is its start index. -/
def chunkLoop (engine : Engine) (total step : Nat) : List Nat → Except PdfError (List String × List PageInfo)
  | [] => .ok ([], [])
  | start :: rest =>
    match processChunk engine start (chunkLen total step start) start with
    | .error e => .error e
    | .ok (t, ps) =>
      match chunkLoop engine total step rest with
      | .error e => .error e
      | .ok (ts, pss) => .ok (t :: ts, ps ++ pss)

/-- The splitting branch of `process_pdf`, with the chunk size as a
parameter (the source fixes it to `MAX_PAGES_PER_REQUEST`): merge is
`"\n".join(all_text_parts)` and list concatenation of the page results. -/
def processChunked (engine : Engine) (total step : Nat) : Except PdfError (String × List PageInfo) :=
  match chunkLoop engine total step (chunkStarts total step) with
  | .error e => .error e
  | .ok (ts, pss) => .ok (String.intercalate "\n" ts, pss)

/-- Processing the whole document in a single engine call (the
`total_pages <= MAX_PAGES_PER_REQUEST` branch of `process_pdf`). -/
def oneCall (engine : Engine) (total_pages : Nat) : Except PdfError (String × List PageInfo) :=
  processChunk engine 0 total_pages 0

/-- Model of `DocumentAIService.process_pdf` on a document with
`total_pages` pages. -/
def processPdf (engine : Engine) (total_pages : Nat) : Except PdfError (String × List PageInfo) :=
  if total_pages ≤ MAX_PAGES_PER_REQUEST then
    oneCall engine total_pages
  else
    processChunked engine total_pages MAX_PAGES_PER_REQUEST

/-! ### Engine consistency hypotheses -/

/-- The per-page data derived from an engine response: page text (via the
layout text anchor into the chunk's full text), dimensions, and the
filtered language codes. -/
def derivedPageData (full_text : String) (page : EnginePage) : String × Int × Int × List String :=
  (extractPageText full_text page,
   (match page.dimension with | some d => d.1 | none => 0),
   (match page.dimension with | some d => d.2 | none => 0),
   (page.detected_languages.filter (fun l => l.language_code ≠ "")).map (fun l => l.language_code))

/-- The engine succeeds on every submitted chunk and returns the same
per-page responses regardless of the chunking: page `s + i` of any chunk
`[s, s + c)` always derives the data `f (s + i)`. -/
def PerPageConsistent (engine : Engine) (f : Nat → String × Int × Int × List String) : Prop :=
  ∀ s c, ∃ d, engine s c = .ok d ∧ d.pages.length = c ∧
    ∀ i, i < c → (d.pages[i]?).map (derivedPageData d.text) = some (f (s + i))

/-- The `PageInfo` that a consistent engine yields for global page index
`j` (0-based): page number `j + 1` and the data `f j`. -/
def pageInfoOf (f : Nat → String × Int × Int × List String) (j : Nat) : PageInfo :=
  { page_number := j + 1
    width := (f j).2.1
    height := (f j).2.2.1
    text := (f j).1
    detected_languages := (f j).2.2.2 }

/-- The chunk text the engine reports for chunk `[s, s + c)` (defined
when the call succeeds; arbitrary otherwise). -/
def okText (engine : Engine) (s c : Nat) : String :=
  match engine s c with
  | .ok d => d.text
  | .error _ => ""

/-- The list of chunk texts for the forced chunking of `total` pages in
chunks of `step`. -/
def chunkTexts (engine : Engine) (total step : Nat) : List String :=
  (chunkStarts total step).map (fun s => okText engine s (chunkLen total step s))

/-! ### Image triage: `extract_embedded_images` / `build_image_infos` -/

/-- Model of the dict returned by `doc.extract_image(xref)` when truthy:
raw bytes, width, height and format extension (`.get` defaults merged).
The extraction oracle returns `none` when `not base_image`. -/
structure BaseImage where
  image : List Nat
  width : Nat
  height : Nat
  ext : String
deriving DecidableEq, Repr

/-- An element of the returned list:
`(image_bytes, page_number, mime_type, width, height)`. -/
abbrev RawImage := List Nat × Nat × String × Nat × Nat

/-- A PyMuPDF document, as observed by `extract_embedded_images`: the
per-page xref lists produced by `page.get_images(full=True)` (first tuple
component of each entry, duplicates possible), and the extraction oracle
for `doc.extract_image`. -/
structure PdfDoc where
  pages : List (List Nat)
  extract : Nat → Option BaseImage

/-- One `counts[xref] += 1` step on the counting dict (modelled as its
lookup function, with `.get(xref, 0)` built in as the value at absent
keys). -/
def bumpCount (counts : Nat → Nat) (x : Nat) : Nat → Nat :=
  fun y => if y = x then counts x + 1 else counts y

/-- The inner loop of the first pass over one page: each xref is counted
at most once per page via `seen_on_page`. -/
def countPageLoop (counts : Nat → Nat) (seen : List Nat) : List Nat → (Nat → Nat)
  | [] => counts
  | x :: rest =>
    if x ∈ seen then countPageLoop counts seen rest
    else countPageLoop (bumpCount counts x) (x :: seen) rest

/-- First pass of `extract_embedded_images`: `xref_page_count`, the number
of distinct pages each xref appears on. -/
def countPass (pages : List (List Nat)) : Nat → Nat :=
  pages.foldl (fun counts pg => countPageLoop counts [] pg) (fun _ => 0)

/-- The decorative threshold `max(2, int(total_pages * 0.3))`.  For every
realistic page count `n` (below `2 ^ 52`), the float computation
`int(n * 0.3)` truncates to `⌊3n/10⌋`, which is `3 * n / 10` on naturals. -/
def repeatThreshold (total_pages : Nat) : Nat :=
  max 2 (3 * total_pages / 10)

/-- The mime type: `f"image/{ext}" if ext != "jpeg" else "image/jpeg"`. -/
def mimeOf (ext : String) : String :=
  if ext ≠ "jpeg" then "image/" ++ ext else "image/jpeg"

/-- Second-pass inner loop over one page's xref list.  Mirrors the source
loop body in order: decorative skip, `seen_xrefs` skip (adding to the set
before extraction), extraction-failure skip, dimension filter, file-size
filter, emission.  Returns the updated `seen_xrefs` and the emitted
images; the first component of each emitted pair is the xref of the
emitted image object (ghost instrumentation — the source appends only the
tuple). -/
def imgLoop (dc : PdfDoc) (counts : Nat → Nat) (threshold minW minH minKB page_num : Nat) :
    List Nat → List Nat → List Nat × List (Nat × RawImage)
  | seen, [] => (seen, [])
  | seen, xref :: rest =>
    if threshold ≤ counts xref then
      imgLoop dc counts threshold minW minH minKB page_num seen rest
    else if xref ∈ seen then
      imgLoop dc counts threshold minW minH minKB page_num seen rest
    else
      match dc.extract xref with
      | none => imgLoop dc counts threshold minW minH minKB page_num (xref :: seen) rest
      | some base =>
        if base.image = [] then
          imgLoop dc counts threshold minW minH minKB page_num (xref :: seen) rest
        else if base.width < minW ∨ base.height < minH then
          imgLoop dc counts threshold minW minH minKB page_num (xref :: seen) rest
        else if base.image.length < minKB * 1024 then
          imgLoop dc counts threshold minW minH minKB page_num (xref :: seen) rest
        else
          ((imgLoop dc counts threshold minW minH minKB page_num (xref :: seen) rest).1,
           (xref, (base.image, page_num + 1, mimeOf base.ext, base.width, base.height))
             :: (imgLoop dc counts threshold minW minH minKB page_num (xref :: seen) rest).2)

/-- Second pass over the pages, threading `seen_xrefs`. -/
def pagesLoop (dc : PdfDoc) (counts : Nat → Nat) (threshold minW minH minKB : Nat) :
    Nat → List Nat → List (List Nat) → List (Nat × RawImage)
  | _, _, [] => []
  | page_num, seen, pg :: rest =>
    (imgLoop dc counts threshold minW minH minKB page_num seen pg).2
      ++ pagesLoop dc counts threshold minW minH minKB (page_num + 1)
           (imgLoop dc counts threshold minW minH minKB page_num seen pg).1 rest

/-- Model of `extract_embedded_images`, instrumented with the emitted
xref (ghost first component). -/
def extractEmbeddedImagesX (dc : PdfDoc) (minW minH minKB : Nat) : List (Nat × RawImage) :=
  pagesLoop dc (countPass dc.pages) (repeatThreshold dc.pages.length) minW minH minKB 0 [] dc.pages

/-- Model of `extract_embedded_images`: the returned tuple list. -/
def extractEmbeddedImages (dc : PdfDoc) (minW minH minKB : Nat) : List RawImage :=
  (extractEmbeddedImagesX dc minW minH minKB).map Prod.snd

/-- Model of `build_image_infos`: zips the raw image tuples with the
storage URIs (Python `zip` truncates to the shorter list). -/
def buildImageInfos (raw_images : List RawImage) (gcs_uris : List String) : List ImageInfo :=
  (raw_images.zip gcs_uris).map (fun p =>
    { page_number := p.1.2.1
      gcs_uri := p.2
      width := p.1.2.2.2.1
      height := p.1.2.2.2.2
      mime_type := p.1.2.2.1 })

/-! ### Lemmas for the chunked text extractor -/

/-- The `PageInfo` built at enumeration index `i` with offset `off` from
derived page data `d`. -/
def mkInfoAt (off i : Nat) (d : String × Int × Int × List String) : PageInfo :=
  { page_number := off + (i + 1)
    width := d.2.1
    height := d.2.2.1
    text := d.1
    detected_languages := d.2.2.2 }

theorem mkPageInfo_eq_mkInfoAt (t : String) (off i : Nat) (p : EnginePage) :
    mkPageInfo t off i p = mkInfoAt off i (derivedPageData t p) := rfl

theorem mkInfoAt_eq_pageInfoOf (f : Nat → String × Int × Int × List String) (off i : Nat) :
    mkInfoAt off i (f (off + i)) = pageInfoOf f (off + i) := by
  simp [mkInfoAt, pageInfoOf]
  omega

theorem buildPages_eq (t : String) (off : Nat) :
    ∀ (ps : List EnginePage) (i : Nat) (g : Nat → String × Int × Int × List String),
      (∀ j, j < ps.length → (ps[j]?).map (derivedPageData t) = some (g j)) →
      buildPages t off i ps = (List.range ps.length).map (fun j => mkInfoAt off (i + j) (g j)) := by
  intro ps
  induction ps with
  | nil => intro i g _; simp [buildPages]
  | cons p rest ih =>
    intro i g h
    have h0 := h 0 (by simp)
    simp at h0
    have hrest := ih (i + 1) (fun j => g (j + 1)) (fun j hj => by
      have := h (j + 1) (by simpa using Nat.succ_lt_succ hj)
      simpa using this)
    simp [buildPages, hrest, mkPageInfo_eq_mkInfoAt, h0, List.range_succ_eq_map,
      List.map_map]
    intro j _
    congr 1
    omega

theorem processChunk_consistent (engine : Engine) (f : Nat → String × Int × Int × List String)
    (hcons : PerPageConsistent engine f) (s c off : Nat) :
    ∃ d, engine s c = .ok d ∧
      processChunk engine s c off =
        .ok (d.text, (List.range c).map (fun j => mkInfoAt off j (f (s + j)))) := by
  obtain ⟨d, hd, hlen, hpg⟩ := hcons s c
  refine ⟨d, hd, ?_⟩
  have hb := buildPages_eq d.text off d.pages 0 (fun j => f (s + j))
    (fun j hj => hpg j (hlen ▸ hj))
  simp [processChunk, hd, hb, hlen]

/-- The page list of a consistent one-call extraction equals the pages
derived from the global per-page responses. -/
def canonicalPages (f : Nat → String × Int × Int × List String) (total : Nat) : List PageInfo :=
  (List.range total).map (pageInfoOf f)

theorem oneCall_consistent (engine : Engine) (f : Nat → String × Int × Int × List String)
    (hcons : PerPageConsistent engine f) (total : Nat) :
    oneCall engine total = .ok (okText engine 0 total, canonicalPages f total) := by
  obtain ⟨d, hd, hchunk⟩ := processChunk_consistent engine f hcons 0 total 0
  rw [oneCall, hchunk, okText, hd]
  refine congrArg _ (congrArg _ ?_)
  refine List.map_congr_left (fun j _ => ?_)
  have := mkInfoAt_eq_pageInfoOf f 0 j
  simpa using this

theorem chunkLoop_consistent (engine : Engine) (f : Nat → String × Int × Int × List String)
    (hcons : PerPageConsistent engine f) (total step : Nat) :
    ∀ starts : List Nat,
      chunkLoop engine total step starts =
        .ok (starts.map (fun st => okText engine st (chunkLen total step st)),
             (starts.map (fun st => (List.range' st (chunkLen total step st)).map (pageInfoOf f))).flatten) := by
  intro starts
  induction starts with
  | nil => simp [chunkLoop]
  | cons st rest ih =>
    obtain ⟨d, hd, hchunk⟩ := processChunk_consistent engine f hcons st (chunkLen total step st) st
    rw [chunkLoop, hchunk, ih]
    have hr : (List.range' st (chunkLen total step st)).map (pageInfoOf f)
        = (List.range (chunkLen total step st)).map (fun j => mkInfoAt st j (f (st + j))) := by
      rw [List.range'_eq_map_range, List.map_map]
      exact List.map_congr_left (fun j _ => (mkInfoAt_eq_pageInfoOf f st j).symm)
    simp [okText, hd, hr]

theorem chunkStartsGo_flatten (total step : Nat) (hstep : 0 < step) :
    ∀ (fuel s : Nat), total ≤ s + fuel →
      ((chunkStartsGo total step fuel s).map (fun st => List.range' st (chunkLen total step st))).flatten
        = List.range' s (total - s) := by
  intro fuel
  induction fuel with
  | zero =>
    intro s h
    have h0 : total - s = 0 := by omega
    simp [chunkStartsGo, h0]
  | succ fuel ih =>
    intro s h
    by_cases hs : s < total
    · have ihs := ih (s + step) (by omega)
      simp only [chunkStartsGo, hs, if_pos, List.map_cons, List.flatten_cons, ihs]
      rcases le_or_lt (s + step) total with hc | hc
      · have h1 : chunkLen total step s = step := by
          simp [chunkLen]; omega
        rw [h1, List.range'_append_1 s step (total - (s + step))]
        congr 1
        omega
      · have h1 : chunkLen total step s = total - s := by
          simp [chunkLen]; omega
        have h2 : total - (s + step) = 0 := by omega
        simp [h1, h2]
    · have h0 : total - s = 0 := by omega
      simp [chunkStartsGo, hs, h0]

theorem processChunked_consistent (engine : Engine) (f : Nat → String × Int × Int × List String)
    (hcons : PerPageConsistent engine f) (total step : Nat) (hstep : 0 < step) :
    processChunked engine total step =
      .ok (String.intercalate "\n" (chunkTexts engine total step), canonicalPages f total) := by
  rw [processChunked, chunkLoop_consistent engine f hcons total step (chunkStarts total step)]
  have hflat : ((chunkStarts total step).map
      (fun st => (List.range' st (chunkLen total step st)).map (pageInfoOf f))).flatten
      = canonicalPages f total := by
    have hmaps : (chunkStarts total step).map
        (fun st => (List.range' st (chunkLen total step st)).map (pageInfoOf f))
        = ((chunkStarts total step).map (fun st => List.range' st (chunkLen total step st))).map
            (List.map (pageInfoOf f)) := by
      rw [List.map_map]
      rfl
    rw [hmaps, ← List.map_flatten]
    simp only [chunkStarts]
    rw [chunkStartsGo_flatten total step hstep total 0 (by omega)]
    simp [canonicalPages, List.range_eq_range']
  rw [hflat]
  rfl

theorem buildPages_page_numbers (t : String) (off : Nat) :
    ∀ (ps : List EnginePage) (i : Nat),
      (buildPages t off i ps).map (fun p => p.page_number) = List.range' (off + i + 1) ps.length := by
  intro ps
  induction ps with
  | nil => intro i; simp [buildPages]
  | cons p rest ih =>
    intro i
    rw [buildPages, List.map_cons, ih (i + 1), List.length_cons, List.range'_succ]
    simp [mkPageInfo]
    omega

/-- The engine returns one per-page result for each page of every
submitted chunk. -/
def EngineOneResultPerPage (engine : Engine) : Prop :=
  ∀ s c, ∃ d, engine s c = .ok d ∧ d.pages.length = c

theorem chunkLoop_page_numbers (engine : Engine) (total step : Nat)
    (hlen : EngineOneResultPerPage engine) :
    ∀ starts : List Nat, ∃ ts pss,
      chunkLoop engine total step starts = .ok (ts, pss) ∧
      pss.map (fun p => p.page_number)
        = ((starts.map (fun st => List.range' st (chunkLen total step st))).flatten).map
            (fun j => 1 + j) := by
  intro starts
  induction starts with
  | nil => exact ⟨[], [], rfl, by simp⟩
  | cons st rest ih =>
    obtain ⟨d, hd, hdlen⟩ := hlen st (chunkLen total step st)
    obtain ⟨ts, pss, hloop, hnum⟩ := ih
    refine ⟨d.text :: ts, buildPages d.text st 0 d.pages ++ pss, ?_, ?_⟩
    · rw [chunkLoop, processChunk, hd, hloop]
    · rw [List.map_append, hnum, buildPages_page_numbers, hdlen]
      simp only [List.map_cons, List.flatten_cons, List.map_append, List.map_add_range']
      have harg : st + 0 + 1 = 1 + st := by omega
      rw [harg]

theorem chunkLoop_error (engine : Engine) (total step : Nat) :
    ∀ starts : List Nat,
      (∃ st ∈ starts, ∃ exc, engine st (chunkLen total step st) = .error exc) →
      ∃ msg, chunkLoop engine total step starts = .error (.documentAIError msg) := by
  intro starts
  induction starts with
  | nil => rintro ⟨st, hst, -⟩; cases hst
  | cons st rest ih =>
    rintro ⟨s1, hs1, exc, herr⟩
    cases h : engine st (chunkLen total step st) with
    | error e =>
      exact ⟨"Document AI processing failed: " ++ e, by rw [chunkLoop, processChunk, h]⟩
    | ok d =>
      have hs1r : s1 ∈ rest := by
        rcases List.mem_cons.mp hs1 with h1 | h1
        · subst h1; rw [h] at herr; cases herr
        · exact h1
      obtain ⟨msg, hloop⟩ := ih ⟨s1, hs1r, exc, herr⟩
      exact ⟨msg, by rw [chunkLoop, processChunk, h, hloop]⟩

/-! ### Claim C1: chunk/merge equivalence -/

/-- C1 (amended): assuming the engine returns the same per-page responses
either way, one-call processing and forced chunked processing (chunks of
`step ≥ 1` pages) yield identical ordered page sequences (the
concatenation of the chunks' per-page results, in chunk order); the
chunked full text is the chunk texts joined with a single newline, and
the two full texts coincide exactly when the engine's one-call text
equals that join. -/
theorem c1_chunk_merge_amended (engine : Engine) (f : Nat → String × Int × Int × List String)
    (total step : Nat) (hstep : 0 < step) (hcons : PerPageConsistent engine f) :
    oneCall engine total = .ok (okText engine 0 total, canonicalPages f total) ∧
    processChunked engine total step =
      .ok (String.intercalate "\n" (chunkTexts engine total step), canonicalPages f total) ∧
    (okText engine 0 total = String.intercalate "\n" (chunkTexts engine total step) →
      processChunked engine total step = oneCall engine total) := by
  refine ⟨oneCall_consistent engine f hcons total,
    processChunked_consistent engine f hcons total step hstep, ?_⟩
  intro htxt
  rw [processChunked_consistent engine f hcons total step hstep,
    oneCall_consistent engine f hcons total, htxt]

/-- An engine whose responses have empty text and bare pages (no layout,
no languages, no dimension), used for concrete instances. -/
def witEngine : Engine := fun _ c =>
  .ok { text := ""
        pages := List.replicate c { layout := none, detected_languages := [], dimension := none } }

/-- The global per-page data of `witEngine`. -/
def witF : Nat → String × Int × Int × List String := fun _ => ("", 0, 0, [])

theorem witEngine_consistent : PerPageConsistent witEngine witF := by
  intro s c
  refine ⟨_, rfl, by simp [witEngine], ?_⟩
  intro i hi
  simp [witEngine, List.getElem?_replicate, hi, derivedPageData, extractPageText, witF]

theorem c1_chunk_merge_amended_witness :
    oneCall witEngine 1 = .ok (okText witEngine 0 1, canonicalPages witF 1) ∧
    processChunked witEngine 1 1 =
      .ok (String.intercalate "\n" (chunkTexts witEngine 1 1), canonicalPages witF 1) :=
  ⟨(c1_chunk_merge_amended witEngine witF 1 1 (by decide) witEngine_consistent).1,
   (c1_chunk_merge_amended witEngine witF 1 1 (by decide) witEngine_consistent).2.1⟩

/-- C1 counterexample to the claim as stated: for a 16-page document the
engine responses are per-page consistent, the page sequences agree, yet
the one-call full text is `""` while the chunked (code-path) full text is
`"\n"` — the merge inserts a newline between the two chunk texts, so the
full texts are not identical. -/
theorem c1_chunk_merge_counterexample :
    PerPageConsistent witEngine witF ∧
    oneCall witEngine 16 = .ok ("", canonicalPages witF 16) ∧
    processPdf witEngine 16 = .ok ("\n", canonicalPages witF 16) ∧
    ("" : String) ≠ "\n" := by
  refine ⟨witEngine_consistent, by rfl, by rfl, by decide⟩

/-! ### Claim C3: page numbering contiguity -/

/-- C3: for every document, if the engine returns one per-page result for
each page of each submitted chunk, `process_pdf` succeeds and the
returned `PageInfo.page_number` values are exactly `1, …, total` in
order, with no gaps and no duplicates. -/
theorem c3_page_numbering_contiguous (engine : Engine) (total : Nat)
    (hlen : EngineOneResultPerPage engine) :
    ∃ t ps, processPdf engine total = .ok (t, ps) ∧
      ps.map (fun p => p.page_number) = List.range' 1 total := by
  by_cases hle : total ≤ MAX_PAGES_PER_REQUEST
  · obtain ⟨d, hd, hdlen⟩ := hlen 0 total
    refine ⟨d.text, buildPages d.text 0 0 d.pages, ?_, ?_⟩
    · rw [processPdf, if_pos hle, oneCall, processChunk, hd]
    · rw [buildPages_page_numbers, hdlen]
  · obtain ⟨ts, pss, hloop, hnum⟩ :=
      chunkLoop_page_numbers engine total MAX_PAGES_PER_REQUEST hlen
        (chunkStarts total MAX_PAGES_PER_REQUEST)
    refine ⟨String.intercalate "\n" ts, pss, ?_, ?_⟩
    · rw [processPdf, if_neg hle, processChunked, hloop]
    · rw [hnum]
      simp only [chunkStarts]
      rw [chunkStartsGo_flatten total MAX_PAGES_PER_REQUEST (by decide) total 0 (by omega),
        List.map_add_range']
      simp

theorem c3_page_numbering_contiguous_witness :
    ∃ t ps, processPdf witEngine 16 = .ok (t, ps) ∧
      ps.map (fun p => p.page_number) = List.range' 1 16 :=
  c3_page_numbering_contiguous witEngine 16
    (fun _ c => ⟨_, rfl, by simp [witEngine]⟩)

/-! ### Claim C8: chunk failure atomicity -/

/-- C8: for a document processed in multiple chunks, if the engine call
for any chunk fails, the whole extraction aborts with a single
`DocumentAIError` and returns no partial result (the `Except.error`
result carries no text and no pages). -/
theorem c8_chunk_failure_atomic (engine : Engine) (total : Nat)
    (hmulti : MAX_PAGES_PER_REQUEST < total)
    (hfail : ∃ st ∈ chunkStarts total MAX_PAGES_PER_REQUEST,
      ∃ exc, engine st (chunkLen total MAX_PAGES_PER_REQUEST st) = .error exc) :
    ∃ msg, processPdf engine total = .error (PdfError.documentAIError msg) := by
  obtain ⟨msg, hloop⟩ :=
    chunkLoop_error engine total MAX_PAGES_PER_REQUEST
      (chunkStarts total MAX_PAGES_PER_REQUEST) hfail
  refine ⟨msg, ?_⟩
  rw [processPdf, if_neg (by omega), processChunked, hloop]

/-- An engine that fails on the chunk starting at page 15 (the second
chunk of a 16-page document). -/
def failEngine : Engine := fun s _ =>
  if s = 15 then .error "quota exceeded" else .ok { text := "", pages := [] }

theorem c8_chunk_failure_atomic_witness :
    ∃ msg, processPdf failEngine 16 = .error (PdfError.documentAIError msg) :=
  c8_chunk_failure_atomic failEngine 16 (by decide)
    ⟨15, by decide, "quota exceeded", by rfl⟩

/-! ### Lemmas for the image triage engine -/

/-- The tuple that the extraction pass emits for xref `x` found on page
`page_num`, when the extraction and the filters let it through. -/
def emitTupleOf (dc : PdfDoc) (minW minH minKB x page_num : Nat) : Option RawImage :=
  match dc.extract x with
  | none => none
  | some base =>
    if base.image = [] then none
    else if base.width < minW ∨ base.height < minH then none
    else if base.image.length < minKB * 1024 then none
    else some (base.image, page_num + 1, mimeOf base.ext, base.width, base.height)

theorem imgLoop_filter (dc : PdfDoc) (counts : Nat → Nat) (th mW mH mKB pn x : Nat) :
    ∀ (pg seen : List Nat),
      (imgLoop dc counts th mW mH mKB pn seen pg).2.filter (fun q => q.1 = x)
        = if x ∈ pg ∧ counts x < th ∧ x ∉ seen then
            (emitTupleOf dc mW mH mKB x pn).toList.map (fun t => (x, t))
          else [] := by
  intro pg
  induction pg with
  | nil => intro seen; simp [imgLoop]
  | cons y rest ih =>
    intro seen
    by_cases hth : th ≤ counts y
    · simp only [imgLoop, if_pos hth, ih seen]
      by_cases hxy : x = y
      · subst hxy
        have hnot : ¬ counts x < th := by omega
        simp [hnot]
      · simp [List.mem_cons, hxy]
    · by_cases hys : y ∈ seen
      · simp only [imgLoop, if_neg hth, if_pos hys, ih seen]
        by_cases hxy : x = y
        · subst hxy; simp [hys]
        · simp [List.mem_cons, hxy]
      · cases hext : dc.extract y with
        | none =>
          simp only [imgLoop, if_neg hth, if_neg hys, hext, ih (y :: seen)]
          by_cases hxy : x = y
          · subst hxy
            simp [List.mem_cons, emitTupleOf, hext, hys, Nat.lt_of_not_le hth]
          · simp [List.mem_cons, hxy]
        | some base =>
          by_cases hbi : base.image = []
          · simp only [imgLoop, if_neg hth, if_neg hys, hext, if_pos hbi, ih (y :: seen)]
            by_cases hxy : x = y
            · subst hxy
              simp [List.mem_cons, emitTupleOf, hext, hbi, hys, Nat.lt_of_not_le hth]
            · simp [List.mem_cons, hxy]
          · by_cases hdim : base.width < mW ∨ base.height < mH
            · simp only [imgLoop, if_neg hth, if_neg hys, hext, if_neg hbi, if_pos hdim,
                ih (y :: seen)]
              by_cases hxy : x = y
              · subst hxy
                simp [List.mem_cons, emitTupleOf, hext, hbi, hdim, hys, Nat.lt_of_not_le hth]
              · simp [List.mem_cons, hxy]
            · by_cases hsz : base.image.length < mKB * 1024
              · simp only [imgLoop, if_neg hth, if_neg hys, hext, if_neg hbi, if_neg hdim,
                  if_pos hsz, ih (y :: seen)]
                by_cases hxy : x = y
                · subst hxy
                  simp [List.mem_cons, emitTupleOf, hext, hbi, hdim, hsz, hys,
                    Nat.lt_of_not_le hth]
                · simp [List.mem_cons, hxy]
              · simp only [imgLoop, if_neg hth, if_neg hys, hext, if_neg hbi, if_neg hdim,
                  if_neg hsz, List.filter_cons, ih (y :: seen)]
                by_cases hxy : x = y
                · subst hxy
                  simp [List.mem_cons, emitTupleOf, hext, hbi, hdim, hsz, hys,
                    Nat.lt_of_not_le hth]
                · simp [List.mem_cons, hxy]
                  exact fun h => hxy h.symm

theorem imgLoop_fst_cons (dc : PdfDoc) (counts : Nat → Nat) (th mW mH mKB pn y : Nat)
    (rest seen : List Nat) (hth : ¬ th ≤ counts y) (hys : y ∉ seen) :
    (imgLoop dc counts th mW mH mKB pn seen (y :: rest)).1
      = (imgLoop dc counts th mW mH mKB pn (y :: seen) rest).1 := by
  simp only [imgLoop, if_neg hth, if_neg hys]
  cases dc.extract y with
  | none => rfl
  | some base =>
    dsimp only
    split
    · rfl
    · split
      · rfl
      · split
        · rfl
        · rfl

theorem imgLoop_seen_mem (dc : PdfDoc) (counts : Nat → Nat) (th mW mH mKB pn x : Nat) :
    ∀ (pg seen : List Nat),
      x ∈ (imgLoop dc counts th mW mH mKB pn seen pg).1 ↔
        x ∈ seen ∨ (x ∈ pg ∧ counts x < th) := by
  intro pg
  induction pg with
  | nil => intro seen; simp [imgLoop]
  | cons y rest ih =>
    intro seen
    by_cases hth : th ≤ counts y
    · simp only [imgLoop, if_pos hth, ih seen, List.mem_cons]
      by_cases hxy : x = y
      · subst hxy
        have hnot : ¬ counts x < th := by omega
        tauto
      · tauto
    · by_cases hys : y ∈ seen
      · simp only [imgLoop, if_neg hth, if_pos hys, ih seen, List.mem_cons]
        by_cases hxy : x = y
        · subst hxy; tauto
        · tauto
      · rw [imgLoop_fst_cons dc counts th mW mH mKB pn y rest seen hth hys, ih (y :: seen)]
        simp only [List.mem_cons]
        by_cases hxy : x = y
        · subst hxy
          have hlt : counts x < th := by omega
          tauto
        · tauto

theorem imgLoop_page_tag (dc : PdfDoc) (counts : Nat → Nat) (th mW mH mKB pn : Nat) :
    ∀ (pg seen : List Nat) (q : Nat × RawImage),
      q ∈ (imgLoop dc counts th mW mH mKB pn seen pg).2 → q.2.2.1 = pn + 1 := by
  intro pg
  induction pg with
  | nil => intro seen q hq; simp [imgLoop] at hq
  | cons y rest ih =>
    intro seen q hq
    by_cases hth : th ≤ counts y
    · simp only [imgLoop, if_pos hth] at hq
      exact ih seen q hq
    · by_cases hys : y ∈ seen
      · simp only [imgLoop, if_neg hth, if_pos hys] at hq
        exact ih seen q hq
      · cases hext : dc.extract y with
        | none =>
          simp only [imgLoop, if_neg hth, if_neg hys, hext] at hq
          exact ih _ q hq
        | some base =>
          simp only [imgLoop, if_neg hth, if_neg hys, hext] at hq
          by_cases hbi : base.image = []
          · rw [if_pos hbi] at hq; exact ih _ q hq
          · rw [if_neg hbi] at hq
            by_cases hdim : base.width < mW ∨ base.height < mH
            · rw [if_pos hdim] at hq; exact ih _ q hq
            · rw [if_neg hdim] at hq
              by_cases hsz : base.image.length < mKB * 1024
              · rw [if_pos hsz] at hq; exact ih _ q hq
              · rw [if_neg hsz] at hq
                rcases List.mem_cons.mp hq with h | h
                · subst h; rfl
                · exact ih _ q h

theorem pagesLoop_filter (dc : PdfDoc) (counts : Nat → Nat) (th mW mH mKB x : Nat) :
    ∀ (pages : List (List Nat)) (pn : Nat) (seen : List Nat),
      (pagesLoop dc counts th mW mH mKB pn seen pages).filter (fun q => q.1 = x)
        = if x ∈ seen ∨ th ≤ counts x then []
          else
            match pages.findIdx? (fun pg => decide (x ∈ pg)) pn with
            | none => []
            | some i => (emitTupleOf dc mW mH mKB x i).toList.map (fun t => (x, t)) := by
  intro pages
  induction pages with
  | nil =>
    intro pn seen
    simp [pagesLoop, List.findIdx?]
  | cons pg rest ih =>
    intro pn seen
    rw [pagesLoop, List.filter_append,
      imgLoop_filter dc counts th mW mH mKB pn x pg seen,
      ih (pn + 1) (imgLoop dc counts th mW mH mKB pn seen pg).1]
    by_cases hsth : x ∈ seen ∨ th ≤ counts x
    · have h1 : ¬(x ∈ pg ∧ counts x < th ∧ x ∉ seen) := by
        rcases hsth with h | h
        · tauto
        · rintro ⟨-, h2, -⟩; omega
      have h2 : x ∈ (imgLoop dc counts th mW mH mKB pn seen pg).1 ∨ th ≤ counts x := by
        rcases hsth with h | h
        · exact Or.inl ((imgLoop_seen_mem dc counts th mW mH mKB pn x pg seen).mpr (Or.inl h))
        · exact Or.inr h
      rw [if_neg h1, if_pos h2, if_pos hsth]
      simp
    · push_neg at hsth
      by_cases hxpg : x ∈ pg
      · have h1 : x ∈ pg ∧ counts x < th ∧ x ∉ seen := ⟨hxpg, by omega, hsth.1⟩
        have h2 : x ∈ (imgLoop dc counts th mW mH mKB pn seen pg).1 ∨ th ≤ counts x :=
          Or.inl ((imgLoop_seen_mem dc counts th mW mH mKB pn x pg seen).mpr
            (Or.inr ⟨hxpg, by omega⟩))
        have h3 : ¬(x ∈ seen ∨ th ≤ counts x) := by
          rintro (h | h)
          · exact hsth.1 h
          · omega
        rw [if_pos h1, if_pos h2, if_neg h3, List.findIdx?_cons]
        simp [hxpg]
      · have h1 : ¬(x ∈ pg ∧ counts x < th ∧ x ∉ seen) := by tauto
        have h2 : ¬(x ∈ (imgLoop dc counts th mW mH mKB pn seen pg).1 ∨ th ≤ counts x) := by
          rw [imgLoop_seen_mem dc counts th mW mH mKB pn x pg seen]
          rintro ((h | ⟨h, -⟩) | h)
          · exact hsth.1 h
          · exact hxpg h
          · omega
        have h3 : ¬(x ∈ seen ∨ th ≤ counts x) := by
          rintro (h | h)
          · exact hsth.1 h
          · omega
        rw [if_neg h1, if_neg h2, if_neg h3, List.findIdx?_cons]
        simp [hxpg]

theorem pagesLoop_page_ge (dc : PdfDoc) (counts : Nat → Nat) (th mW mH mKB : Nat) :
    ∀ (pages : List (List Nat)) (pn : Nat) (seen : List Nat) (q : Nat × RawImage),
      q ∈ pagesLoop dc counts th mW mH mKB pn seen pages → pn + 1 ≤ q.2.2.1 := by
  intro pages
  induction pages with
  | nil => intro pn seen q hq; simp [pagesLoop] at hq
  | cons pg rest ih =>
    intro pn seen q hq
    rw [pagesLoop] at hq
    rcases List.mem_append.mp hq with h | h
    · rw [imgLoop_page_tag dc counts th mW mH mKB pn pg seen q h]
    · have := ih (pn + 1) _ q h
      omega

theorem pagesLoop_sorted (dc : PdfDoc) (counts : Nat → Nat) (th mW mH mKB : Nat) :
    ∀ (pages : List (List Nat)) (pn : Nat) (seen : List Nat),
      List.Pairwise (fun a b => a ≤ b)
        ((pagesLoop dc counts th mW mH mKB pn seen pages).map (fun q => q.2.2.1)) := by
  intro pages
  induction pages with
  | nil => intro pn seen; simp [pagesLoop]
  | cons pg rest ih =>
    intro pn seen
    rw [pagesLoop, List.map_append]
    refine List.pairwise_append.mpr ⟨?_, ih (pn + 1) _, ?_⟩
    · refine List.pairwise_of_forall_mem_list ?_
      intro a ha b hb
      rcases List.mem_map.mp ha with ⟨q, hq, rfl⟩
      rcases List.mem_map.mp hb with ⟨r, hr, rfl⟩
      rw [imgLoop_page_tag dc counts th mW mH mKB pn pg seen q hq,
        imgLoop_page_tag dc counts th mW mH mKB pn pg seen r hr]
    · intro a ha b hb
      rcases List.mem_map.mp ha with ⟨q, hq, rfl⟩
      rcases List.mem_map.mp hb with ⟨r, hr, rfl⟩
      have h1 := imgLoop_page_tag dc counts th mW mH mKB pn pg seen q hq
      have h2 := pagesLoop_page_ge dc counts th mW mH mKB rest (pn + 1) _ r hr
      omega

theorem countPageLoop_eq (x : Nat) :
    ∀ (pg seen : List Nat) (counts : Nat → Nat),
      countPageLoop counts seen pg x
        = counts x + (if x ∈ pg ∧ x ∉ seen then 1 else 0) := by
  intro pg
  induction pg with
  | nil => intro seen counts; simp [countPageLoop]
  | cons y rest ih =>
    intro seen counts
    by_cases hys : y ∈ seen
    · rw [countPageLoop, if_pos hys, ih seen counts]
      by_cases hxy : x = y
      · subst hxy; simp [hys]
      · simp [List.mem_cons, hxy]
    · rw [countPageLoop, if_neg hys, ih (y :: seen) (bumpCount counts y)]
      by_cases hxy : x = y
      · subst hxy
        simp [bumpCount, List.mem_cons, hys]
      · simp [bumpCount, List.mem_cons, hxy, Ne.symm hxy]

theorem countPass_foldl_eq (x : Nat) :
    ∀ (pages : List (List Nat)) (counts : Nat → Nat),
      (pages.foldl (fun c pg => countPageLoop c [] pg) counts) x
        = counts x + pages.countP (fun pg => decide (x ∈ pg)) := by
  intro pages
  induction pages with
  | nil => intro counts; simp
  | cons pg rest ih =>
    intro counts
    rw [List.foldl_cons, ih (countPageLoop counts [] pg), countPageLoop_eq x pg [] counts,
      List.countP_cons]
    by_cases hx : x ∈ pg
    · simp [hx]
      omega
    · simp [hx]

/-- The first pass counts, for each xref, the number of pages on which it
appears. -/
theorem countPass_eq (pages : List (List Nat)) (x : Nat) :
    countPass pages x = pages.countP (fun pg => decide (x ∈ pg)) := by
  rw [countPass, countPass_foldl_eq x pages (fun _ => 0)]
  omega

/-! ### Claim C9: image emission uniqueness and first-page tagging -/

/-- C9: each image identity occurs at most once in the triage output; a
non-decorative identity that passes the extraction and filters and first
appears on the page with 0-based index `i` is emitted exactly once,
tagged with page number `i + 1`; and the output is ordered ascending by
the tagged page number. -/
theorem c9_image_uniqueness (dc : PdfDoc) (mW mH mKB x i : Nat) (base : BaseImage)
    (hcnt : dc.pages.countP (fun pg => decide (x ∈ pg)) < repeatThreshold dc.pages.length)
    (hfi : dc.pages.findIdx? (fun pg => decide (x ∈ pg)) 0 = some i)
    (hbase : dc.extract x = some base) (himg : base.image ≠ [])
    (hw : mW ≤ base.width) (hh : mH ≤ base.height)
    (hsz : mKB * 1024 ≤ base.image.length) :
    ((extractEmbeddedImagesX dc mW mH mKB).map Prod.fst).Nodup ∧
    (extractEmbeddedImagesX dc mW mH mKB).filter (fun q => q.1 = x)
      = [(x, (base.image, i + 1, mimeOf base.ext, base.width, base.height))] ∧
    List.Pairwise (fun a b => a ≤ b)
      ((extractEmbeddedImages dc mW mH mKB).map (fun r => r.2.1)) := by
  refine ⟨?_, ?_, ?_⟩
  · rw [List.nodup_iff_count_le_one]
    intro y
    have hc : List.count y ((extractEmbeddedImagesX dc mW mH mKB).map Prod.fst)
        = ((extractEmbeddedImagesX dc mW mH mKB).filter (fun q => q.1 = y)).length := by
      rw [List.count, List.countP_map, List.countP_eq_length_filter]
      congr 1
    rw [hc, extractEmbeddedImagesX,
      pagesLoop_filter dc (countPass dc.pages) (repeatThreshold dc.pages.length) mW mH mKB y
        dc.pages 0 []]
    by_cases h1 : y ∈ ([] : List Nat) ∨ repeatThreshold dc.pages.length ≤ countPass dc.pages y
    · rw [if_pos h1]; simp
    · rw [if_neg h1]
      cases dc.pages.findIdx? (fun pg => decide (y ∈ pg)) 0 with
      | none => simp
      | some j =>
        have hopt : ∀ o : Option RawImage, ((o.toList).map (fun t => (y, t))).length ≤ 1 := by
          intro o; cases o <;> simp
        simpa using hopt (emitTupleOf dc mW mH mKB y j)
  · rw [extractEmbeddedImagesX,
      pagesLoop_filter dc (countPass dc.pages) (repeatThreshold dc.pages.length) mW mH mKB x
        dc.pages 0 []]
    have h1 : ¬(x ∈ ([] : List Nat) ∨ repeatThreshold dc.pages.length ≤ countPass dc.pages x) := by
      rw [countPass_eq]
      rintro (h | h)
      · cases h
      · omega
    rw [if_neg h1, hfi]
    have h2 : emitTupleOf dc mW mH mKB x i
        = some (base.image, i + 1, mimeOf base.ext, base.width, base.height) := by
      simp only [emitTupleOf, hbase]
      rw [if_neg himg, if_neg (by omega : ¬(base.width < mW ∨ base.height < mH)),
        if_neg (by omega : ¬ base.image.length < mKB * 1024)]
    simp [h2]
  · rw [extractEmbeddedImages, List.map_map]
    exact pagesLoop_sorted dc (countPass dc.pages) (repeatThreshold dc.pages.length) mW mH mKB
      dc.pages 0 []

/-- A 3-page document: xref 9 only on page 1, xref 2 on pages 2 and 3
(decorative for a 3-page document, whose threshold is 2). -/
def witDoc : PdfDoc :=
  { pages := [[9], [2], [2]]
    extract := fun _ => some { image := [0, 1], width := 4, height := 5, ext := "png" } }

theorem c9_image_uniqueness_witness :
    ((extractEmbeddedImagesX witDoc 0 0 0).map Prod.fst).Nodup ∧
    (extractEmbeddedImagesX witDoc 0 0 0).filter (fun q => q.1 = 9)
      = [(9, ([0, 1], 0 + 1, mimeOf "png", 4, 5))] ∧
    List.Pairwise (fun a b => a ≤ b)
      ((extractEmbeddedImages witDoc 0 0 0).map (fun r => r.2.1)) :=
  c9_image_uniqueness witDoc 0 0 0 9 0 { image := [0, 1], width := 4, height := 5, ext := "png" }
    (by decide) (by decide) rfl (by decide) (by decide) (by decide) (by decide)

/-! ### Claim C2: decorative classification threshold -/

/-- A 10-page document with xref 1 on exactly 3 pages (the code threshold
`max(2, int(10·0.3)) = 3` classifies it decorative). -/
def docTen3 : PdfDoc :=
  { pages := [[1], [1], [1], [], [], [], [], [], [], []]
    extract := fun _ => some { image := [0], width := 4, height := 4, ext := "png" } }

/-- A 10-page document with xref 1 on exactly 2 pages (below threshold). -/
def docTen2 : PdfDoc :=
  { pages := [[1], [1], [], [], [], [], [], [], [], []]
    extract := fun _ => some { image := [0], width := 4, height := 4, ext := "png" } }

/-- C2 (amended): an identity that appears in the document and passes
extraction and the dimension/size filters is emitted iff the number of
distinct pages it appears on is strictly below `max(2, int(0.3 ×
total_pages))`, i.e. `max 2 (3·n/10)` with a floor (not a ceiling); in
particular for a 10-page document an identity on exactly 3 pages is
decorative (not emitted) and one on 2 pages is not (emitted). -/
theorem c2_decorative_threshold_amended (dc : PdfDoc) (mW mH mKB x : Nat) (base : BaseImage)
    (hx : ∃ pg ∈ dc.pages, x ∈ pg)
    (hbase : dc.extract x = some base) (himg : base.image ≠ [])
    (hw : mW ≤ base.width) (hh : mH ≤ base.height)
    (hsz : mKB * 1024 ≤ base.image.length) :
    (x ∈ (extractEmbeddedImagesX dc mW mH mKB).map Prod.fst ↔
      dc.pages.countP (fun pg => decide (x ∈ pg)) < max 2 (3 * dc.pages.length / 10)) ∧
    extractEmbeddedImages docTen3 0 0 0 = [] ∧
    extractEmbeddedImages docTen2 0 0 0 = [([0], 1, "image/png", 4, 4)] := by
  refine ⟨?_, by decide, by decide⟩
  constructor
  · intro hmem
    by_contra hge
    push_neg at hge
    rcases List.mem_map.mp hmem with ⟨q, hq, hqx⟩
    have hmemf : q ∈ (extractEmbeddedImagesX dc mW mH mKB).filter (fun r => r.1 = x) :=
      List.mem_filter.mpr ⟨hq, by simp [hqx]⟩
    rw [extractEmbeddedImagesX,
      pagesLoop_filter dc (countPass dc.pages) (repeatThreshold dc.pages.length) mW mH mKB x
        dc.pages 0 []] at hmemf
    rw [if_pos (Or.inr (by rw [countPass_eq]; exact hge))] at hmemf
    cases hmemf
  · intro hlt
    rcases hx with ⟨pg, hpg, hxpg⟩
    have hfi : dc.pages.findIdx? (fun pg => decide (x ∈ pg)) 0
        = some (dc.pages.findIdx (fun pg => decide (x ∈ pg))) :=
      List.findIdx?_eq_some_of_exists ⟨pg, hpg, by simp [hxpg]⟩
    have h1 : ¬(x ∈ ([] : List Nat) ∨ repeatThreshold dc.pages.length ≤ countPass dc.pages x) := by
      rw [countPass_eq]
      rintro (h | h)
      · cases h
      · exact absurd hlt (by rw [repeatThreshold] at h; omega)
    have h2 : emitTupleOf dc mW mH mKB x (dc.pages.findIdx (fun pg => decide (x ∈ pg)))
        = some (base.image, dc.pages.findIdx (fun pg => decide (x ∈ pg)) + 1,
            mimeOf base.ext, base.width, base.height) := by
      simp only [emitTupleOf, hbase]
      rw [if_neg himg, if_neg (by omega : ¬(base.width < mW ∨ base.height < mH)),
        if_neg (by omega : ¬ base.image.length < mKB * 1024)]
    have hfil : (extractEmbeddedImagesX dc mW mH mKB).filter (fun r => r.1 = x)
        = [(x, (base.image, dc.pages.findIdx (fun pg => decide (x ∈ pg)) + 1,
            mimeOf base.ext, base.width, base.height))] := by
      rw [extractEmbeddedImagesX,
        pagesLoop_filter dc (countPass dc.pages) (repeatThreshold dc.pages.length) mW mH mKB x
          dc.pages 0 [], if_neg h1, hfi]
      simp [h2]
    have hmemq : (x, (base.image, dc.pages.findIdx (fun pg => decide (x ∈ pg)) + 1,
        mimeOf base.ext, base.width, base.height)) ∈ (extractEmbeddedImagesX dc mW mH mKB) := by
      refine List.mem_of_mem_filter (p := fun r => decide (r.1 = x)) ?_
      rw [hfil]
      exact List.mem_singleton.mpr rfl
    exact List.mem_map.mpr ⟨_, hmemq, rfl⟩

theorem c2_decorative_threshold_amended_witness :
    ((1 : Nat) ∈ (extractEmbeddedImagesX docTen2 0 0 0).map Prod.fst ↔
      docTen2.pages.countP (fun pg => decide ((1 : Nat) ∈ pg))
        < max 2 (3 * docTen2.pages.length / 10)) ∧
    extractEmbeddedImages docTen3 0 0 0 = [] ∧
    extractEmbeddedImages docTen2 0 0 0 = [([0], 1, "image/png", 4, 4)] :=
  c2_decorative_threshold_amended docTen2 0 0 0 1
    { image := [0], width := 4, height := 4, ext := "png" }
    ⟨[1], by decide, by decide⟩ rfl (by decide) (by decide) (by decide) (by decide)

/-- A 7-page document with xref 5 on exactly 2 pages, every extraction
and filter condition passing. -/
def docSeven : PdfDoc :=
  { pages := [[5], [5], [], [], [], [], []]
    extract := fun _ => some { image := [0], width := 3, height := 3, ext := "png" } }

/-- The threshold formula the claim states: `max(2, ceil(0.3 × n))`
(`⌈3n/10⌉ = (3n+9)/10` on naturals). -/
def specCeilThreshold (n : Nat) : Nat := max 2 ((3 * n + 9) / 10)

/-- C2 counterexample: in a 7-page document an identity on exactly 2
pages is strictly below the claimed ceiling threshold
`max(2, ⌈0.3×7⌉) = 3`, so per the claim it is not decorative and, passing
every filter, would be emitted; the code's floor threshold
`max(2, int(0.3×7)) = 2` classifies it decorative and the triage emits
nothing. -/
theorem c2_decorative_threshold_counterexample :
    docSeven.pages.countP (fun pg => decide ((5 : Nat) ∈ pg)) = 2 ∧
    docSeven.pages.countP (fun pg => decide ((5 : Nat) ∈ pg))
      < specCeilThreshold docSeven.pages.length ∧
    repeatThreshold docSeven.pages.length
      ≤ docSeven.pages.countP (fun pg => decide ((5 : Nat) ∈ pg)) ∧
    extractEmbeddedImages docSeven 0 0 0 = [] := by
  decide

/-! ### Claim C10: build_image_infos pairing -/

/-- C10: `build_image_infos` returns exactly `min` of the two lengths,
pairing the i-th raw image's page number, mime type, width and height
with the i-th URI; excess elements of the longer list are dropped. -/
theorem c10_build_image_infos (raws : List RawImage) (uris : List String) (i : Nat)
    (h1 : i < raws.length) (h2 : i < uris.length) :
    (buildImageInfos raws uris).length = min raws.length uris.length ∧
    ∃ h : i < (buildImageInfos raws uris).length,
      (buildImageInfos raws uris).get ⟨i, h⟩ =
        { page_number := (raws.get ⟨i, h1⟩).2.1
          gcs_uri := uris.get ⟨i, h2⟩
          width := (raws.get ⟨i, h1⟩).2.2.2.1
          height := (raws.get ⟨i, h1⟩).2.2.2.2
          mime_type := (raws.get ⟨i, h1⟩).2.2.1 } := by
  have hlen : (buildImageInfos raws uris).length = min raws.length uris.length := by
    simp [buildImageInfos]
  refine ⟨hlen, ⟨by omega, ?_⟩⟩
  simp [buildImageInfos, List.get_eq_getElem, List.getElem_map, List.getElem_zip]

theorem c10_build_image_infos_witness :
    (buildImageInfos [([7], 3, "image/png", 10, 20), ([8], 4, "image/jpeg", 1, 2)] ["a"]).length
      = min 2 1 ∧
    ∃ h, (buildImageInfos [([7], 3, "image/png", 10, 20), ([8], 4, "image/jpeg", 1, 2)]
        ["a"]).get ⟨0, h⟩ =
      { page_number := 3, gcs_uri := "a", width := 10, height := 20, mime_type := "image/png" } :=
  c10_build_image_infos [([7], 3, "image/png", 10, 20), ([8], 4, "image/jpeg", 1, 2)] ["a"] 0
    (by decide) (by decide)

/-! ### A small regex engine

`report_parser.py` works through `re.search` / `re.match` / `re.sub` with
Python (backtracking, leftmost, lazy/greedy) semantics.  The engine below
implements the construct subset those patterns use: literals, character
classes (`\d`, `\s`, `\S`, ranges, negation), alternation (leftmost
preference), greedy and lazy counted repetition, one capture group,
lookahead, an inline case-sensitivity switch (`(?-i:…)`), `^`, `$`, `\Z`,
`\b`, and the IGNORECASE / DOTALL flags.  Recursion is structural on a
fuel argument that strictly dominates the matcher's nesting depth on
these patterns (quantifier bodies all consume at least one character per
iteration), so the functions compute by kernel reduction.

Character predicates are the ASCII ones extended with the accented
letters appearing in the parser's patterns and inputs (Python's are full
Unicode; the difference is irrelevant for the alphabets involved). -/

def isSpaceC (c : Char) : Bool :=
  c = ' ' ∨ c = '\t' ∨ c = '\n' ∨ c = '\r' ∨ c = '\x0b' ∨ c = '\x0c'

def isDigitC (c : Char) : Bool :=
  '0' ≤ c ∧ c ≤ '9'

/-- Lower-casing for ASCII and the accented uppercase letters used in the
patterns. -/
def toLowerX (c : Char) : Char :=
  if 'A' ≤ c ∧ c ≤ 'Z' then Char.ofNat (c.toNat + 32)
  else if c = 'Á' then 'á' else if c = 'É' then 'é' else if c = 'Í' then 'í'
  else if c = 'Ó' then 'ó' else if c = 'Ú' then 'ú' else if c = 'Ñ' then 'ñ'
  else if c = 'Ü' then 'ü' else c

def toUpperX (c : Char) : Char :=
  if 'a' ≤ c ∧ c ≤ 'z' then Char.ofNat (c.toNat - 32)
  else if c = 'á' then 'Á' else if c = 'é' then 'É' else if c = 'í' then 'Í'
  else if c = 'ó' then 'Ó' else if c = 'ú' then 'Ú' else if c = 'ñ' then 'Ñ'
  else if c = 'ü' then 'Ü' else c

/-- Word characters for `\b` (ASCII alphanumerics, underscore, and the
accented letters of the parser's alphabet). -/
def isWordC (c : Char) : Bool :=
  ('a' ≤ c ∧ c ≤ 'z') ∨ ('A' ≤ c ∧ c ≤ 'Z') ∨ isDigitC c ∨ c = '_' ∨
    c = 'á' ∨ c = 'é' ∨ c = 'í' ∨ c = 'ó' ∨ c = 'ú' ∨ c = 'ñ' ∨ c = 'ü' ∨
    c = 'Á' ∨ c = 'É' ∨ c = 'Í' ∨ c = 'Ó' ∨ c = 'Ú' ∨ c = 'Ñ' ∨ c = 'Ü'

/-- One item of a character class. -/
inductive ClsItem where
  | ch (c : Char)
  | range (lo hi : Char)
  | digit
  | space
  | nonspace
deriving DecidableEq, Repr

def clsItemMatch : ClsItem → Char → Bool
  | .ch a, c => c = a
  | .range lo hi, c => lo ≤ c ∧ c ≤ hi
  | .digit, c => isDigitC c
  | .space, c => isSpaceC c
  | .nonspace, c => !isSpaceC c

def clsBase (items : List ClsItem) (c : Char) : Bool :=
  items.any (fun it => clsItemMatch it c)

/-- Regular expression ASTs for the parser's patterns. -/
inductive RE where
  | eps
  | lit (c : Char)
  | cls (neg : Bool) (items : List ClsItem)
  | dot
  | seq (a b : RE)
  | alt (a b : RE)
  | rep (lo : Nat) (hi : Option Nat) (lazy : Bool) (a : RE)
  | grp (a : RE)
  | look (a : RE)
  | caseOff (a : RE)
  | bos
  | dollar
  | eoi
  | wordB
deriving Repr

/-- Match result: end position and the group-1 span, if any. -/
abbrev MRes := Nat × Option (Nat × Nat)

/-- Does character `d` match the class, under the IGNORECASE flag?  Python
folds case on both the input character and the class contents; folding
the input both ways is equivalent for the classes in use. -/
def clsMatches (ign : Bool) (neg : Bool) (items : List ClsItem) (d : Char) : Bool :=
  let b := clsBase items d || (ign && (clsBase items (toLowerX d) || clsBase items (toUpperX d)))
  b != neg

/-- The backtracking matcher, in continuation-passing style: `k` receives
the position after the current node and the current group-1 span, and the
first success (Python's leftmost/earliest-alternative preference) wins. -/
def mMatch (s : List Char) : Nat → Bool → Bool → RE → Nat → Option (Nat × Nat) →
    (Nat → Option (Nat × Nat) → Option MRes) → Option MRes
  | 0, _, _, _, _, _, _ => none
  | _ + 1, _, _, .eps, i, cap, k => k i cap
  | _ + 1, ign, _, .lit c, i, cap, k =>
    match s[i]? with
    | some d =>
      if d = c || (ign && toLowerX d = toLowerX c) then k (i + 1) cap else none
    | none => none
  | _ + 1, ign, _, .cls neg items, i, cap, k =>
    match s[i]? with
    | some d => if clsMatches ign neg items d then k (i + 1) cap else none
    | none => none
  | _ + 1, _, dot, .dot, i, cap, k =>
    match s[i]? with
    | some d => if dot || d ≠ '\n' then k (i + 1) cap else none
    | none => none
  | fuel + 1, ign, dot, .seq a b, i, cap, k =>
    mMatch s fuel ign dot a i cap (fun j c2 => mMatch s fuel ign dot b j c2 k)
  | fuel + 1, ign, dot, .alt a b, i, cap, k =>
    mMatch s fuel ign dot a i cap k <|> mMatch s fuel ign dot b i cap k
  | fuel + 1, ign, dot, .rep lo hi lazy a, i, cap, k =>
    if lo ≠ 0 then
      mMatch s fuel ign dot a i cap (fun j c2 =>
        mMatch s fuel ign dot (.rep (lo - 1) (hi.map (· - 1)) lazy a) j c2 k)
    else
      match hi with
      | some 0 => k i cap
      | _ =>
        if lazy then
          k i cap <|> mMatch s fuel ign dot a i cap (fun j c2 =>
            mMatch s fuel ign dot (.rep 0 (hi.map (· - 1)) lazy a) j c2 k)
        else
          mMatch s fuel ign dot a i cap (fun j c2 =>
            mMatch s fuel ign dot (.rep 0 (hi.map (· - 1)) lazy a) j c2 k) <|> k i cap
  | fuel + 1, ign, dot, .grp a, i, cap, k =>
    mMatch s fuel ign dot a i cap (fun j _ => k j (some (i, j)))
  | fuel + 1, ign, dot, .look a, i, cap, k =>
    match mMatch s fuel ign dot a i cap (fun j c2 => some (j, c2)) with
    | some (_, c2) => k i c2
    | none => none
  | fuel + 1, _, dot, .caseOff a, i, cap, k =>
    mMatch s fuel false dot a i cap k
  | _ + 1, _, _, .bos, i, cap, k =>
    if i = 0 then k i cap else none
  | _ + 1, _, _, .dollar, i, cap, k =>
    if i = s.length ∨ (i + 1 = s.length ∧ s[i]? = some '\n') then k i cap else none
  | _ + 1, _, _, .eoi, i, cap, k =>
    if i = s.length then k i cap else none
  | _ + 1, _, _, .wordB, i, cap, k =>
    let wAt : Nat → Bool := fun j =>
      match s[j]? with
      | some c => isWordC c
      | none => false
    if (if i = 0 then false else wAt (i - 1)) ≠ wAt i then k i cap else none

/-- Fuel comfortably dominating the matcher's nesting depth on the
parser's patterns. -/
def mFuel (s : List Char) : Nat := 8 * s.length + 1024

/-- Attempt a match anchored at position `i` (like `re.match` at an
offset): returns the end position and the group-1 span. -/
def matchAt (ign dot : Bool) (re : RE) (s : List Char) (i : Nat) : Option MRes :=
  mMatch s (mFuel s) ign dot re i none (fun j c2 => some (j, c2))

def searchGo (ign dot : Bool) (re : RE) (s : List Char) : Nat → Nat → Option (Nat × MRes)
  | 0, _ => none
  | fuel + 1, i =>
    match matchAt ign dot re s i with
    | some r => some (i, r)
    | none => if i < s.length then searchGo ign dot re s fuel (i + 1) else none

/-- `re.search`: the leftmost match; returns (start, end, group-1 span). -/
def pySearch (ign dot : Bool) (re : RE) (s : List Char) : Option (Nat × MRes) :=
  searchGo ign dot re s (s.length + 1) 0

def subGo (ign dot : Bool) (re : RE) (repl : List Char) (s : List Char) : Nat → Nat → List Char
  | 0, _ => []
  | fuel + 1, i =>
    match matchAt ign dot re s i with
    | some (j, _) =>
      if i < j then repl ++ subGo ign dot re repl s fuel j
      else
        match s[i]? with
        | some c => repl ++ c :: subGo ign dot re repl s fuel (i + 1)
        | none => repl
    | none =>
      match s[i]? with
      | some c => c :: subGo ign dot re repl s fuel (i + 1)
      | none => []

/-- `re.sub`: replace every non-overlapping match, scanning left to
right (an empty match emits the replacement and advances one character,
as in Python 3.7+). -/
def pySub (ign dot : Bool) (re : RE) (repl : List Char) (s : List Char) : List Char :=
  subGo ign dot re repl s (s.length + 1) 0

/-- Python `str.strip()`. -/
def pyStrip (l : List Char) : List Char :=
  ((l.dropWhile isSpaceC).reverse.dropWhile isSpaceC).reverse

/-- Python `str.lower()` (on the alphabet in use). -/
def pyLower (l : List Char) : List Char :=
  l.map toLowerX

/-- Python slicing `l[a:b]` for list content. -/
def sliceL (l : List Char) (a b : Nat) : List Char :=
  (l.drop a).take (b - a)

/-! ### Pattern transcriptions: `report_parser.py` -/

def reSeqs : List RE → RE
  | [] => .eps
  | [a] => a
  | a :: rest => .seq a (reSeqs rest)

def reAlts : List RE → RE
  | [] => .eps
  | [a] => a
  | a :: rest => .alt a (reAlts rest)

/-- A literal string. -/
def reStr (s : String) : RE := reSeqs (s.toList.map RE.lit)

def reStar (a : RE) : RE := .rep 0 none false a
def reStarL (a : RE) : RE := .rep 0 none true a
def rePlus (a : RE) : RE := .rep 1 none false a
def rePlusL (a : RE) : RE := .rep 1 none true a
def reOpt (a : RE) : RE := .rep 0 (some 1) false a

def wsCls : RE := .cls false [.space]
def hwsCls : RE := .cls true [.nonspace, .ch '\n']
def dgtCls : RE := .cls false [.digit]
def sepClsRE : RE := .cls false [.ch '/', .ch '-', .ch '.']
def anyChar : RE := .cls false [.space, .nonspace]
def colonDash : RE := .cls false [.ch ':', .ch '-']
def notNl : RE := .cls true [.ch '\n']

/-- `_FIELD_LABELS`. -/
def fieldLabels : RE := reAlts
  (["Paciente", "Nombre", "Especie", "Raza", "Sexo", "Edad",
    "Tutor", "Propietario", "Derivante", "Profesional",
    "Fecha", "Referido"].map reStr)

/-- `_VALUE_END`. -/
def valueEnd : RE := .look (reAlts
  [reSeqs [rePlus hwsCls, fieldLabels, reStar wsCls, colonDash],
   .lit '\n',
   .dollar])

/-- `PATTERNS["patient_name"]`. -/
def rePatient : RE := reSeqs
  [reAlts [reStr "Paciente", reStr "Nombre", reStr "PACIENTE", reStr "NOMBRE"],
   reStar wsCls, colonDash, reStar wsCls, .grp (rePlusL .dot), valueEnd]

/-- `PATTERNS["species"]`. -/
def reSpecies : RE := reSeqs
  [reAlts [reStr "Especie", reStr "ESPECIE"],
   reStar wsCls, colonDash, reStar wsCls, .grp (rePlusL .dot), valueEnd]

/-- `PATTERNS["breed"]`. -/
def reBreed : RE := reSeqs
  [reAlts [reStr "Raza", reStr "RAZA"],
   reStar wsCls, colonDash, reStar wsCls, .grp (rePlusL .dot), valueEnd]

/-- `PATTERNS["sex"]`. -/
def reSexP : RE := reSeqs
  [reAlts [reStr "Sexo", reStr "SEXO"],
   reStar wsCls, colonDash, reStar wsCls, .grp (rePlusL .dot), valueEnd]

/-- `PATTERNS["age"]`. -/
def reAge : RE := reSeqs
  [reAlts [reStr "Edad", reStr "EDAD"],
   reStar hwsCls, colonDash, reStar hwsCls,
   .grp (reSeqs [.cls false [.nonspace], reStarL notNl]), valueEnd]

/-- `PATTERNS["owner_name"]`. -/
def reOwner : RE := reSeqs
  [reAlts [reStr "Tutor", reStr "Propietario", reStr "TUTOR", reStr "PROPIETARIO"],
   reStar wsCls, colonDash, reStar wsCls, .grp (rePlusL .dot), valueEnd]

/-- `PATTERNS["veterinarian"]`. -/
def reVet : RE := reSeqs
  [reAlts [reStr "Derivante", reStr "Profesional",
           reSeqs [reStr "Referido", rePlus wsCls, reStr "por"],
           reStr "DERIVANTE", reStr "PROFESIONAL"],
   reStar wsCls, colonDash, reStar wsCls, .grp (rePlusL .dot), valueEnd]

/-- `PATTERNS["date"]`. -/
def reDateP : RE := reSeqs
  [reAlts [reStr "Fecha", reStr "FECHA"],
   reStar wsCls, reOpt colonDash, reStar wsCls, reOpt (.lit '\n'), reStar wsCls,
   .grp (reSeqs [.rep 1 (some 4) false dgtCls, sepClsRE,
                 .rep 1 (some 2) false dgtCls, sepClsRE,
                 .rep 2 (some 4) false dgtCls])]

/-- `_FOOTER_PATTERN`. -/
def footerRE : RE := reSeqs
  [.lit '\n', reStar wsCls,
   reAlts [reSeqs [.lit 'M', reOpt (.lit '.'), .lit 'V', reOpt (.lit '.'), wsCls],
           reSeqs [.lit 'M', reOpt (.lit '.'), .lit 'P', reOpt (.lit '.'), wsCls],
           reSeqs [reStr "Mat.", reStar wsCls, dgtCls],
           reStr "DiagnoVet",
           reSeqs [.rep 3 (some 3) false dgtCls,
                   reOpt (.cls false [.ch '-', .space]),
                   .rep 7 (some 7) false dgtCls]]]

/-- `_BULLET_RE`. -/
def bulletRE : RE := reSeqs
  [.bos, rePlus (.cls false [.space, .ch '•', .ch '●', .ch '-', .ch '*'])]

/-- `\s*\n\s*`. -/
def nlCollapseRE : RE := reSeqs [reStar wsCls, .lit '\n', reStar wsCls]

/-- Two-or-more spaces (`"  +"`). -/
def spacesRE : RE := reSeqs [.lit ' ', rePlus (.lit ' ')]

/-- `[•●]`. -/
def bulletsCls : RE := .cls false [.ch '•', .ch '●']

/-- Model of `_clean_text`. -/
def cleanText (l : List Char) : List Char :=
  let t1 := pyStrip (pySub false false bulletRE [] l)
  let t2 := match pySearch true false footerRE t1 with
    | some (st, _, _) => pyStrip (t1.take st)
    | none => t1
  let t3 := pySub false false nlCollapseRE [' '] t2
  let t4 := pySub false false spacesRE [' '] t3
  pyStrip t4

/-- Model of `_clean_diagnosis`. -/
def cleanDiagnosis (l : List Char) : List Char :=
  let t1 := match pySearch true false footerRE l with
    | some (st, _, _) => l.take st
    | none => l
  let t2 := pySub false false bulletsCls [] t1
  let t3 := pySub false false nlCollapseRE [' '] t2
  let t4 := pySub false false spacesRE [' '] t3
  pyStrip t4

/-! ### Date and sex normalization -/

def isSepC (c : Char) : Bool := c = '/' ∨ c = '-' ∨ c = '.'

/-- Exactly `n` digits (`\d{n}` with no shorter fallback). -/
def digitsTake (l : List Char) (n : Nat) : Option (List Char × List Char) :=
  if n ≤ l.length ∧ (l.take n).all isDigitC then some (l.take n, l.drop n) else none

/-- `$` without MULTILINE: end of string or just before a final newline. -/
def dollarEnd (r : List Char) : Bool := r = [] ∨ r = ['\n']

/-- The separator-day-end tail of `_normalize_date`'s regex, with the
greedy two-digit day tried before the one-digit fallback. -/
def matchDay (y mo : List Char) : List Char → Option (List Char × List Char × List Char)
  | s2 :: r4 =>
    if isSepC s2 then
      (match digitsTake r4 2 with
       | some (d, r5) => if dollarEnd r5 then some (y, mo, d) else none
       | none => none) <|>
      (match digitsTake r4 1 with
       | some (d, r5) => if dollarEnd r5 then some (y, mo, d) else none
       | none => none)
    else none
  | [] => none

/-- Model of `re.match(r"(\d{4})[/\-.](\d{1,2})[/\-.](\d{1,2})$", raw)`:
the three captured groups, with Python's greedy-then-backtrack choice of
the one/two-digit groups. -/
def matchY4 (l : List Char) : Option (List Char × List Char × List Char) :=
  match digitsTake l 4 with
  | none => none
  | some (y, r1) =>
    match r1 with
    | s1 :: r2 =>
      if isSepC s1 then
        (match digitsTake r2 2 with
         | some (mo, r3) => matchDay y mo r3
         | none => none) <|>
        (match digitsTake r2 1 with
         | some (mo, r3) => matchDay y mo r3
         | none => none)
      else none
    | [] => none

/-- Model of `_normalize_date` on a non-empty captured value:
`f"{m.group(3)}/{m.group(2)}/{m.group(1)}"` on a match, identity
otherwise. -/
def normalizeDateL (raw : List Char) : List Char :=
  match matchY4 raw with
  | some (y, mo, d) => d ++ '/' :: (mo ++ '/' :: y)
  | none => raw

/-- `_SEX_MAP`. -/
def sexMapL : List (List Char × List Char) :=
  [("hembra".toList, "Hembra".toList),
   ("macho".toList, "Macho".toList),
   ("h".toList, "Hembra".toList),
   ("m".toList, "Macho".toList),
   ("hembra castrada".toList, "Hembra castrada".toList),
   ("hembra-castrada".toList, "Hembra castrada".toList),
   ("hembra - castrada".toList, "Hembra castrada".toList),
   ("macho castrado".toList, "Macho castrado".toList),
   ("macho-castrado".toList, "Macho castrado".toList),
   ("macho - castrado".toList, "Macho castrado".toList)]

/-- Model of `_normalize_sex` on a non-empty value:
`_SEX_MAP.get(raw.strip().lower(), raw.strip())`. -/
def normalizeSexVal (raw : List Char) : List Char :=
  let key := pyLower (pyStrip raw)
  match sexMapL.find? (fun p => p.1 = key) with
  | some p => p.2
  | none => pyStrip raw

/-- `_normalize_sex` including the `if not raw: return None` falsiness
guard. -/
def normalizeSexOpt : Option (List Char) → Option (List Char)
  | none => none
  | some r => if r = [] then none else some (normalizeSexVal r)

/-- `_normalize_date` including the `if not raw: return None` guard. -/
def normalizeDateOpt : Option (List Char) → Option (List Char)
  | none => none
  | some r => if r = [] then none else some (normalizeDateL r)

/-! ### Sections and the parser -/

/-- `[A-ZÁÉÍÓÚÑ]`. -/
def upperCls : RE := .cls false
  [.range 'A' 'Z', .ch 'Á', .ch 'É', .ch 'Í', .ch 'Ó', .ch 'Ú', .ch 'Ñ']

/-- The section pattern `_extract_section` builds around a header: body
capture up to a triple newline, an all-uppercase line (case sensitivity
restored by `(?-i:…)`), a recognized trailing section header, or end of
text. -/
def sectionRE (header : RE) : RE := reSeqs
  [header, reStar wsCls, reOpt colonDash, reStar wsCls, .lit '\n',
   .grp (reStarL anyChar),
   reAlts
     [reStr "\n\n\n",
      reSeqs [.lit '\n', .caseOff (.rep 2 none false upperCls)],
      reSeqs [.lit '\n', reStr "Nota", reOpt (.lit 's'), reStar wsCls, colonDash],
      reSeqs [.lit '\n', reStr "Se", rePlus wsCls, reStr "recomienda"],
      reSeqs [.lit '\n', reStr "Recomendacione", reOpt (.lit 's'), reStar wsCls, colonDash],
      reSeqs [.lit '\n', reStr "Comentario", reOpt (.lit 's'), reStar wsCls, colonDash],
      .eoi]]

/-- `DIAGNOSIS_HEADERS[0]`. -/
def diagHeader1 : RE := reSeqs
  [reStr "DIAGNÓSTICO", rePlus wsCls,
   reAlts [reStr "RADIOGRÁFICO", reStr "ECOGRÁFICO", reStr "ECOCARDIOGRÁFICO"]]

/-- `DIAGNOSIS_HEADERS[1]`. -/
def diagHeader2 : RE := reSeqs
  [reStr "Diagn", .cls false [.ch 'o', .ch 'ó'], reStr "stico", rePlus wsCls,
   reAlts [reSeqs [reStr "radiogr", .cls false [.ch 'a', .ch 'á'], reStr "fico"],
           reSeqs [reStr "ecogr", .cls false [.ch 'a', .ch 'á'], reStr "fico"],
           reSeqs [reStr "ecocardiogr", .cls false [.ch 'a', .ch 'á'], reStr "fico"]]]

/-- `DIAGNOSIS_HEADERS[2]`. -/
def diagHeader3 : RE := reSeqs [reStr "CONCLUSION", reOpt (reStr "ES")]

/-- `DIAGNOSIS_HEADERS[3]`. -/
def diagHeader4 : RE := reStr "HALLAZGOS"

def diagnosisHeaders : List RE := [diagHeader1, diagHeader2, diagHeader3, diagHeader4]

/-- Model of `_extract_section`: try headers in order; a match whose
stripped body has length > 10 wins, otherwise the next header is tried. -/
def extractSectionGo (t : List Char) : List RE → Option (List Char)
  | [] => none
  | h :: rest =>
    match pySearch true false (sectionRE h) t with
    | some (_, _, some (gs, ge)) =>
      let sec := pyStrip (sliceL t gs ge)
      if 10 < sec.length then some sec else extractSectionGo t rest
    | _ => extractSectionGo t rest

def extractSection (t : List Char) : Option (List Char) :=
  extractSectionGo t diagnosisHeaders

/-- `RECOMMENDATION_PATTERNS[0]`. -/
def recP1 : RE := reSeqs
  [reStr "Nota", reOpt (.lit 's'), reStar wsCls, colonDash, reStar wsCls, .lit '\n',
   .grp (reStarL anyChar),
   reAlts [reStr "\n\n\n",
           reSeqs [reStr "\n\n",
                   .look (.cls false [.range 'A' 'Z', .ch 'Á', .ch 'É', .ch 'Í',
                                      .ch 'Ó', .ch 'Ú', .ch 'Ñ', .ch 'M'])],
           .eoi]]

/-- `RECOMMENDATION_PATTERNS[1]`. -/
def recP2 : RE := reSeqs
  [reStr "Nota", reOpt (.lit 's'), reStar wsCls, reOpt colonDash, reStar wsCls,
   .grp (rePlusL .dot), reAlts [reStr "\n\n", .eoi]]

/-- `RECOMMENDATION_PATTERNS[2]`. -/
def recP3 : RE := reSeqs
  [.grp (reSeqs [reStr "Se", rePlus wsCls, reStr "recomienda", .wordB, reStarL anyChar]),
   reAlts [reStr "\n\n", .eoi]]

/-- `RECOMMENDATION_PATTERNS[3]`. -/
def recP4 : RE := reSeqs
  [reStr "Recomendacione", reOpt (.lit 's'), reStar wsCls, colonDash, reStar wsCls,
   .grp (reStarL anyChar), reAlts [reStr "\n\n", .eoi]]

/-- `RECOMMENDATION_PATTERNS[4]`. -/
def recP5 : RE := reSeqs
  [reStr "Comentario", reOpt (.lit 's'), reStar wsCls, reOpt colonDash, reStar wsCls, .lit '\n',
   .grp (reStarL anyChar), reAlts [reStr "\n\n", .eoi]]

def recommendationPatterns : List RE := [recP1, recP2, recP3, recP4, recP5]

/-- Model of `_extract_recommendations` (flags IGNORECASE | DOTALL): the
first pattern whose stripped body has length > 5 wins. -/
def extractRecommendationsGo (t : List Char) : List RE → Option (List Char)
  | [] => none
  | p :: rest =>
    match pySearch true true p t with
    | some (_, _, some (gs, ge)) =>
      let r := pyStrip (sliceL t gs ge)
      if 5 < r.length then some r else extractRecommendationsGo t rest
    | _ => extractRecommendationsGo t rest

def extractRecommendations (t : List Char) : Option (List Char) :=
  extractRecommendationsGo t recommendationPatterns

/-- Composition of a base letter with a combining accent.  Modelled from
`unicodedata.normalize("NFC", text)` (standard library, outside the
repository) restricted to the combining sequences of the parser's
alphabet: vowel + COMBINING ACUTE, n + COMBINING TILDE, u + COMBINING
DIAERESIS; it is the identity on precomposed input. -/
def composeAccent (base acc : Char) : Option Char :=
  if acc = '́' then
    if base = 'a' then some 'á' else if base = 'e' then some 'é'
    else if base = 'i' then some 'í' else if base = 'o' then some 'ó'
    else if base = 'u' then some 'ú'
    else if base = 'A' then some 'Á' else if base = 'E' then some 'É'
    else if base = 'I' then some 'Í' else if base = 'O' then some 'Ó'
    else if base = 'U' then some 'Ú' else none
  else if acc = '̃' then
    if base = 'n' then some 'ñ' else if base = 'N' then some 'Ñ' else none
  else if acc = '̈' then
    if base = 'u' then some 'ü' else if base = 'U' then some 'Ü' else none
  else none

/-- One-pass NFC composition for the supported pairs (composed characters
do not re-combine in this alphabet). -/
def nfcCompose : List Char → List Char
  | [] => []
  | [c] => [c]
  | c :: d :: rest =>
    match composeAccent c d with
    | some e => e :: nfcCompose rest
    | none => c :: nfcCompose (d :: rest)

/-- The result record of `VeterinaryReportParser.parse` (the dict with
its ten keys; `ReportInfo` in `app/models/pdf.py` has the same shape). -/
structure ReportFields where
  patient_name : Option String
  species : Option String
  breed : Option String
  sex : Option String
  age : Option String
  owner_name : Option String
  veterinarian : Option String
  date : Option String
  diagnosis : Option String
  recommendations : Option String
deriving DecidableEq, Repr

/-- One field of the `for field, pattern in cls.PATTERNS.items()` loop:
`value = match.group(1).strip() if match else None` followed by
`result[field] = value if value else None`. -/
def searchField (re : RE) (t : List Char) : Option (List Char) :=
  match pySearch true false re t with
  | some (_, _, some (gs, ge)) =>
    if pyStrip (sliceL t gs ge) = [] then none else some (pyStrip (sliceL t gs ge))
  | _ => none

def optStr (o : Option (List Char)) : Option String :=
  o.map (fun l => String.mk l)

/-- Model of `VeterinaryReportParser.parse`. -/
def parseReport (text : String) : ReportFields :=
  let t := nfcCompose text.toList
  { patient_name := optStr (searchField rePatient t)
    species := optStr (searchField reSpecies t)
    breed := optStr (searchField reBreed t)
    sex := optStr (normalizeSexOpt (searchField reSexP t))
    age := optStr (searchField reAge t)
    owner_name := optStr (searchField reOwner t)
    veterinarian := optStr (searchField reVet t)
    date := optStr (normalizeDateOpt (searchField reDateP t))
    diagnosis :=
      match extractSection t with
      | some sec => if sec = [] then none else some (String.mk (cleanDiagnosis sec))
      | none => none
    recommendations :=
      match extractRecommendations t with
      | some r => if r = [] then none else some (String.mk (cleanText r))
      | none => none }

/-! ### Claims C4–C7: the field extractor -/

theorem dropWhile_idem (p : Char → Bool) (l : List Char) :
    (l.dropWhile p).dropWhile p = l.dropWhile p := by
  cases h : l.dropWhile p with
  | nil => simp
  | cons c rest =>
    have hhd := List.head?_dropWhile_not p l
    rw [h] at hhd
    simp only [List.head?_cons] at hhd
    rw [List.dropWhile_cons_of_neg (by simp [hhd])]

theorem pyStrip_idem (l : List Char) : pyStrip (pyStrip l) = pyStrip l := by
  have hdw : ((l.dropWhile isSpaceC).reverse.dropWhile isSpaceC).reverse.dropWhile isSpaceC
      = ((l.dropWhile isSpaceC).reverse.dropWhile isSpaceC).reverse := by
    cases hsr : ((l.dropWhile isSpaceC).reverse.dropWhile isSpaceC).reverse with
    | nil => simp
    | cons c rest =>
      have h2 : ((l.dropWhile isSpaceC).reverse.dropWhile isSpaceC).getLast? = some c := by
        rw [← List.head?_reverse, hsr, List.head?_cons]
      have h3 : (l.dropWhile isSpaceC).reverse.getLast? = some c := by
        conv_lhs =>
          rw [← List.takeWhile_append_dropWhile (p := isSpaceC)
            (l := (l.dropWhile isSpaceC).reverse)]
        rw [List.getLast?_append, h2]
        rfl
      have h4 : (l.dropWhile isSpaceC).head? = some c := by
        rw [← List.getLast?_reverse, h3]
      have h6 := List.head?_dropWhile_not isSpaceC l
      rw [h4] at h6
      rw [List.dropWhile_cons_of_neg (by simp [h6])]
  rw [pyStrip, pyStrip, hdw, List.reverse_reverse, dropWhile_idem]

theorem pyStrip_pyStrip_ne (l : List Char) (h : pyStrip l ≠ []) :
    pyStrip (pyStrip l) ≠ [] := by
  rw [pyStrip_idem]
  exact h

theorem optStr_searchField_ne (re : RE) (t : List Char) :
    optStr (searchField re t) ≠ some "" := by
  rw [searchField]
  cases hps : pySearch true false re t with
  | none => simp [optStr]
  | some r =>
    obtain ⟨s0, e0, cap⟩ := r
    cases cap with
    | none => simp [optStr]
    | some g =>
      obtain ⟨gs, ge⟩ := g
      by_cases hv : pyStrip (sliceL t gs ge) = []
      · simp [hv, optStr]
      · simp only [hv, if_neg, optStr, Option.map_some]
        intro hcontr
        have h2 : String.mk (pyStrip (sliceL t gs ge)) = "" := Option.some.inj hcontr
        exact hv (congrArg String.data h2)

theorem searchField_stripped (re : RE) (t : List Char) (v : List Char)
    (h : searchField re t = some v) : pyStrip v = v ∧ v ≠ [] := by
  rw [searchField] at h
  cases hps : pySearch true false re t with
  | none => rw [hps] at h; cases h
  | some r =>
    obtain ⟨s0, e0, cap⟩ := r
    rw [hps] at h
    cases cap with
    | none => cases h
    | some g =>
      obtain ⟨gs, ge⟩ := g
      simp only [] at h
      by_cases hv : pyStrip (sliceL t gs ge) = []
      · rw [if_pos hv] at h; cases h
      · rw [if_neg hv] at h
        have hveq : pyStrip (sliceL t gs ge) = v := Option.some.inj h
        constructor
        · rw [← hveq, pyStrip_idem]
        · rw [← hveq]; exact hv

theorem sexMap_values_ne : ∀ p ∈ sexMapL, p.2 ≠ [] := by decide

theorem normalizeSexOpt_searchField_ne (t : List Char) :
    optStr (normalizeSexOpt (searchField reSexP t)) ≠ some "" := by
  cases hsf : searchField reSexP t with
  | none => simp [normalizeSexOpt, optStr]
  | some v =>
    obtain ⟨hstr, hne⟩ := searchField_stripped reSexP t v hsf
    rw [normalizeSexOpt, if_neg hne]
    have hval : normalizeSexVal v ≠ [] := by
      rw [normalizeSexVal]
      cases hf : sexMapL.find? (fun p => p.1 = pyLower (pyStrip v)) with
      | none =>
        simp only
        rw [hstr]
        exact hne
      | some p =>
        simp only
        exact sexMap_values_ne p (List.mem_of_find?_eq_some hf)
    intro hcontr
    have h2 : String.mk (normalizeSexVal v) = "" := Option.some.inj hcontr
    exact hval (congrArg String.data h2)

theorem normalizeDateL_ne (v : List Char) (h : v ≠ []) : normalizeDateL v ≠ [] := by
  rw [normalizeDateL]
  cases matchY4 v with
  | none => exact h
  | some r =>
    obtain ⟨y, mo, d⟩ := r
    cases d with
    | nil => simp
    | cons c rest => simp

theorem normalizeDateOpt_searchField_ne (t : List Char) :
    optStr (normalizeDateOpt (searchField reDateP t)) ≠ some "" := by
  cases hsf : searchField reDateP t with
  | none => simp [normalizeDateOpt, optStr]
  | some v =>
    obtain ⟨-, hne⟩ := searchField_stripped reDateP t v hsf
    rw [normalizeDateOpt, if_neg hne]
    intro hcontr
    have h2 : String.mk (normalizeDateL v) = "" := Option.some.inj hcontr
    exact normalizeDateL_ne v hne (congrArg String.data h2)

/-- C4 (amended): `parse` is total by construction and returns all ten
fields; the seven labeled fields and the normalized sex and date are
`None` (never the empty string) whenever their pattern does not match or
the captured value strips to empty, and diagnosis/recommendations are
`None` when no section qualifies — but a qualifying section whose
*cleaned* text is empty yields the empty string (see the
counterexample), because the source guards `_clean_diagnosis(diagnosis)
if diagnosis else None` on the uncleaned section. -/
theorem c4_field_absence_amended (text : String) :
    (parseReport text).patient_name ≠ some "" ∧
    (parseReport text).species ≠ some "" ∧
    (parseReport text).breed ≠ some "" ∧
    (parseReport text).sex ≠ some "" ∧
    (parseReport text).age ≠ some "" ∧
    (parseReport text).owner_name ≠ some "" ∧
    (parseReport text).veterinarian ≠ some "" ∧
    (parseReport text).date ≠ some "" ∧
    (extractSection (nfcCompose text.toList) = none → (parseReport text).diagnosis = none) ∧
    (extractRecommendations (nfcCompose text.toList) = none →
      (parseReport text).recommendations = none) := by
  refine ⟨optStr_searchField_ne _ _, optStr_searchField_ne _ _, optStr_searchField_ne _ _,
    normalizeSexOpt_searchField_ne _, optStr_searchField_ne _ _, optStr_searchField_ne _ _,
    optStr_searchField_ne _ _, normalizeDateOpt_searchField_ne _, ?_, ?_⟩
  · intro h
    simp only [parseReport, h]
  · intro h
    simp only [parseReport, h]

theorem c4_field_absence_amended_witness :
    (parseReport "x").patient_name ≠ some "" ∧ (parseReport "x").diagnosis = none :=
  ⟨(c4_field_absence_amended "x").1,
   (c4_field_absence_amended "x").2.2.2.2.2.2.2.2.1 (by decide)⟩

/-- C4 counterexample: on this input the diagnosis section matches
(`HALLAZGOS` header, 22-character body) but cleaning removes the bullet
line and truncates at the `M.V.` footer, leaving the empty string — which
`parse` returns as `""`, not as an absent value. -/
theorem c4_totality_counterexample :
    (parseReport "HALLAZGOS\n•••••••••••\nM.V. Perez").diagnosis = some "" := by
  decide

/-- Is `pat` a leading subsequence (prefix) of `l`? -/
def leadsWith : List Char → List Char → Bool
  | [], _ => true
  | _ :: _, [] => false
  | a :: as, b :: bs => a = b && leadsWith as bs

/-- Does `l` contain `pat` as a contiguous substring? -/
def hasSub (pat : List Char) : List Char → Bool
  | [] => leadsWith pat []
  | c :: rest => leadsWith pat (c :: rest) || hasSub pat rest

set_option maxRecDepth 4096 in
/-- C5: when two recognized label:value pairs share one line, each value
stops before the next recognized label. -/
theorem c5_label_collision :
    (parseReport "Paciente: Ramón Tutor: Simonetti").patient_name = some "Ramón" ∧
    (parseReport "Paciente: Ramón Tutor: Simonetti").owner_name = some "Simonetti" ∧
    (parseReport "Paciente: Ramón Tutor: Simonetti").patient_name
      ≠ some "Ramón Tutor: Simonetti" := by
  decide

set_option maxRecDepth 8192 in
/-- C7: a diagnosis section immediately followed by a
`Notas: Se recomienda…` section yields a single-line diagnosis without
the word `recomienda`, and recommendations containing `Se recomienda`. -/
theorem c7_diagnosis_recommendations_separation :
    (parseReport "DIAGNÓSTICO ECOGRÁFICO:\nHepatomegalia difusa severa.\nNotas: Se recomienda control ecografico.").diagnosis
      = some "Hepatomegalia difusa severa." ∧
    (parseReport "DIAGNÓSTICO ECOGRÁFICO:\nHepatomegalia difusa severa.\nNotas: Se recomienda control ecografico.").recommendations
      = some "Se recomienda control ecografico." ∧
    hasSub ['\n'] "Hepatomegalia difusa severa.".toList = false ∧
    hasSub "recomienda".toList "Hepatomegalia difusa severa.".toList = false ∧
    hasSub "Se recomienda".toList "Se recomienda control ecografico.".toList = true := by
  decide

/-! ### Claim C6: date normalization -/

theorem sep_not_digit (c : Char) (hc : isSepC c = true) : isDigitC c = false := by
  have h3 : c = '/' ∨ c = '-' ∨ c = '.' := by simpa [isSepC] using hc
  rcases h3 with rfl | rfl | rfl <;> decide

theorem digitsTake_some (l : List Char) (n : Nat) (a b : List Char)
    (h : digitsTake l n = some (a, b)) :
    l = a ++ b ∧ a.all isDigitC = true ∧ a.length = n := by
  rw [digitsTake] at h
  by_cases hc : n ≤ l.length ∧ (l.take n).all isDigitC
  · rw [if_pos hc] at h
    have h2 : (l.take n, l.drop n) = (a, b) := Option.some.inj h
    have h3 : l.take n = a := congrArg Prod.fst h2
    have h4 : l.drop n = b := congrArg Prod.snd h2
    subst h3
    subst h4
    refine ⟨(List.take_append_drop n l).symm, hc.2, ?_⟩
    rw [List.length_take]
    omega
  · rw [if_neg hc] at h
    cases h

theorem matchDay_of_shape (y mo : List Char) (s2 : Char) (d : List Char)
    (hs2 : isSepC s2 = true) (hd : d.all isDigitC = true) (hd1 : 1 ≤ d.length)
    (hd2 : d.length ≤ 2) :
    matchDay y mo (s2 :: d) = some (y, mo, d) := by
  have hlen : d.length = 1 ∨ d.length = 2 := by omega
  rcases hlen with h1 | h2
  · obtain ⟨x, rfl⟩ := List.length_eq_one.mp h1
    have hx : isDigitC x = true := by simpa using hd
    rw [matchDay]
    rw [if_pos hs2]
    have ht2 : digitsTake [x] 2 = none := by
      rw [digitsTake, if_neg]
      rintro ⟨hle, -⟩
      simp at hle
    have ht1 : digitsTake [x] 1 = some ([x], []) := by
      rw [digitsTake, if_pos]
      · rfl
      · simp [hx]
    rw [ht2, ht1]
    rfl
  · obtain ⟨x, z, rfl⟩ := List.length_eq_two.mp h2
    have hx : isDigitC x = true ∧ isDigitC z = true := by simpa using hd
    rw [matchDay]
    rw [if_pos hs2]
    have ht2 : digitsTake [x, z] 2 = some ([x, z], []) := by
      rw [digitsTake, if_pos]
      · rfl
      · simp [hx.1, hx.2]
    rw [ht2]
    rfl

theorem matchY4_of_shape (y : List Char) (s1 : Char) (mo : List Char) (s2 : Char)
    (d : List Char)
    (hy : y.all isDigitC = true) (hy4 : y.length = 4) (hs1 : isSepC s1 = true)
    (hmo : mo.all isDigitC = true) (hmo1 : 1 ≤ mo.length) (hmo2 : mo.length ≤ 2)
    (hs2 : isSepC s2 = true) (hd : d.all isDigitC = true) (hd1 : 1 ≤ d.length)
    (hd2 : d.length ≤ 2) :
    matchY4 (y ++ s1 :: (mo ++ s2 :: d)) = some (y, mo, d) := by
  have hstep1 : digitsTake (y ++ s1 :: (mo ++ s2 :: d)) 4
      = some (y, s1 :: (mo ++ s2 :: d)) := by
    rw [digitsTake, if_pos]
    · rw [List.take_left' hy4, List.drop_left' hy4]
    · constructor
      · simp
        omega
      · rw [List.take_left' hy4]
        exact hy
  have hlen : mo.length = 1 ∨ mo.length = 2 := by omega
  rcases hlen with h1 | h2
  · obtain ⟨a, rfl⟩ := List.length_eq_one.mp h1
    have ha : isDigitC a = true := by simpa using hmo
    have hm2 : digitsTake (a :: s2 :: d) 2 = none := by
      rw [digitsTake, if_neg]
      rintro ⟨-, hall⟩
      have : isDigitC s2 = true := by simpa using And.right (by simpa using hall)
      rw [sep_not_digit s2 hs2] at this
      cases this
    have hm1 : digitsTake (a :: s2 :: d) 1 = some ([a], s2 :: d) := by
      rw [digitsTake, if_pos]
      · rfl
      · simp [ha]
    simp only [List.cons_append, List.nil_append] at hstep1
    simp only [matchY4, List.cons_append, List.nil_append, hstep1]
    rw [if_pos hs1, hm2, hm1]
    simpa using matchDay_of_shape y [a] s2 d hs2 hd hd1 hd2
  · obtain ⟨a, b, rfl⟩ := List.length_eq_two.mp h2
    have hab : isDigitC a = true ∧ isDigitC b = true := by simpa using hmo
    have hm2 : digitsTake (a :: b :: s2 :: d) 2 = some ([a, b], s2 :: d) := by
      rw [digitsTake, if_pos]
      · rfl
      · simp [hab.1, hab.2]
    simp only [List.cons_append, List.nil_append] at hstep1
    simp only [matchY4, List.cons_append, List.nil_append, hstep1]
    rw [if_pos hs1, hm2]
    have hmd := matchDay_of_shape y [a, b] s2 d hs2 hd hd1 hd2
    simp [hmd]

theorem matchDay_some (y mo r3 y2 mo2 d : List Char)
    (h : matchDay y mo r3 = some (y2, mo2, d)) :
    y2 = y ∧ mo2 = mo ∧ ∃ s2 r5, r3 = s2 :: (d ++ r5) ∧ isSepC s2 = true ∧
      d.all isDigitC = true ∧ 1 ≤ d.length ∧ d.length ≤ 2 ∧ dollarEnd r5 = true := by
  cases r3 with
  | nil => simp [matchDay] at h
  | cons s2 r4 =>
    simp only [matchDay] at h
    by_cases hs2 : isSepC s2 = true
    · rw [if_pos hs2] at h
      rcases (Option.orElse_eq_some _ _ _).mp h with hA | ⟨-, hB⟩
      · cases hdt : digitsTake r4 2 with
        | none => rw [hdt] at hA; exact absurd hA (by simp)
        | some p =>
          obtain ⟨dd, r5⟩ := p
          simp only [hdt] at hA
          by_cases hde : dollarEnd r5 = true
          · rw [if_pos hde] at hA
            have hinj := Option.some.inj hA
            have h1 : y = y2 := congrArg Prod.fst hinj
            have h2 : mo = mo2 := congrArg (fun t => t.2.1) hinj
            have h3 : dd = d := congrArg (fun t => t.2.2) hinj
            obtain ⟨hr4, hdig, hlen⟩ := digitsTake_some r4 2 dd r5 hdt
            subst h3
            exact ⟨h1.symm, h2.symm, s2, r5, by rw [hr4], hs2, hdig, by omega, by omega, hde⟩
          · rw [if_neg hde] at hA
            exact absurd hA (by simp)
      · cases hdt : digitsTake r4 1 with
        | none => rw [hdt] at hB; exact absurd hB (by simp)
        | some p =>
          obtain ⟨dd, r5⟩ := p
          simp only [hdt] at hB
          by_cases hde : dollarEnd r5 = true
          · rw [if_pos hde] at hB
            have hinj := Option.some.inj hB
            have h1 : y = y2 := congrArg Prod.fst hinj
            have h2 : mo = mo2 := congrArg (fun t => t.2.1) hinj
            have h3 : dd = d := congrArg (fun t => t.2.2) hinj
            obtain ⟨hr4, hdig, hlen⟩ := digitsTake_some r4 1 dd r5 hdt
            subst h3
            exact ⟨h1.symm, h2.symm, s2, r5, by rw [hr4], hs2, hdig, by omega, by omega, hde⟩
          · rw [if_neg hde] at hB
            exact absurd hB (by simp)
    · rw [if_neg hs2] at h
      exact absurd h (by simp)

theorem matchY4_some (l y mo d : List Char) (h : matchY4 l = some (y, mo, d)) :
    ∃ s1 s2 r5, l = y ++ s1 :: (mo ++ s2 :: (d ++ r5)) ∧ y.all isDigitC = true ∧
      y.length = 4 ∧ isSepC s1 = true ∧ mo.all isDigitC = true ∧ 1 ≤ mo.length ∧
      mo.length ≤ 2 ∧ isSepC s2 = true ∧ d.all isDigitC = true ∧ 1 ≤ d.length ∧
      d.length ≤ 2 ∧ dollarEnd r5 = true := by
  cases hdt4 : digitsTake l 4 with
  | none => simp [matchY4, hdt4] at h
  | some p =>
    obtain ⟨y0, r1⟩ := p
    cases r1 with
    | nil => simp [matchY4, hdt4] at h
    | cons s1 r2 =>
      simp only [matchY4, hdt4] at h
      by_cases hs1 : isSepC s1 = true
      · rw [if_pos hs1] at h
        obtain ⟨hl4, hy0dig, hy0len⟩ := digitsTake_some l 4 y0 (s1 :: r2) hdt4
        rcases (Option.orElse_eq_some _ _ _).mp h with hA | ⟨-, hB⟩
        · cases hdt2 : digitsTake r2 2 with
          | none => rw [hdt2] at hA; exact absurd hA (by simp)
          | some q =>
            obtain ⟨mo0, r3⟩ := q
            simp only [hdt2] at hA
            obtain ⟨hy, hmo, s2, r5, hr3, hs2, hddig, hd1, hd2, hde⟩ :=
              matchDay_some y0 mo0 r3 y mo d hA
            obtain ⟨hr2, hmodig, hmolen⟩ := digitsTake_some r2 2 mo0 r3 hdt2
            subst hy
            subst hmo
            exact ⟨s1, s2, r5, by rw [hl4, hr2, hr3], hy0dig, hy0len, hs1, hmodig,
              by omega, by omega, hs2, hddig, hd1, hd2, hde⟩
        · cases hdt1 : digitsTake r2 1 with
          | none => rw [hdt1] at hB; exact absurd hB (by simp)
          | some q =>
            obtain ⟨mo0, r3⟩ := q
            simp only [hdt1] at hB
            obtain ⟨hy, hmo, s2, r5, hr3, hs2, hddig, hd1, hd2, hde⟩ :=
              matchDay_some y0 mo0 r3 y mo d hB
            obtain ⟨hr2, hmodig, hmolen⟩ := digitsTake_some r2 1 mo0 r3 hdt1
            subst hy
            subst hmo
            exact ⟨s1, s2, r5, by rw [hl4, hr2, hr3], hy0dig, hy0len, hs1, hmodig,
              by omega, by omega, hs2, hddig, hd1, hd2, hde⟩
      · rw [if_neg hs1] at h
        exact absurd h (by simp)

/-- C6: `_normalize_date` rewrites a captured value to `DD/MM/YYYY`
exactly when it has the strict year-first shape — four digits, a
separator (`/`, `-` or `.`), one or two digits, a separator, one or two
digits, end of string — and returns every other value unchanged; in
particular `"2025/08/27"` becomes `"27/08/2025"` and `"15/01/2025"` is
unchanged.  Captured date values never contain a newline, which rules out
the `$`-before-final-newline edge of the anchor. -/
theorem c6_date_normalization (raw : String) (hnl : ('\n' : Char) ∉ raw.toList) :
    (∀ (y : List Char) (s1 : Char) (mo : List Char) (s2 : Char) (d : List Char),
      raw.toList = y ++ s1 :: (mo ++ s2 :: d) →
      y.all isDigitC = true → y.length = 4 → isSepC s1 = true →
      mo.all isDigitC = true → 1 ≤ mo.length → mo.length ≤ 2 → isSepC s2 = true →
      d.all isDigitC = true → 1 ≤ d.length → d.length ≤ 2 →
      normalizeDateL raw.toList = d ++ '/' :: (mo ++ '/' :: y)) ∧
    ((¬ ∃ (y : List Char) (s1 : Char) (mo : List Char) (s2 : Char) (d : List Char),
        raw.toList = y ++ s1 :: (mo ++ s2 :: d) ∧ y.all isDigitC = true ∧ y.length = 4 ∧
        isSepC s1 = true ∧ mo.all isDigitC = true ∧ 1 ≤ mo.length ∧ mo.length ≤ 2 ∧
        isSepC s2 = true ∧ d.all isDigitC = true ∧ 1 ≤ d.length ∧ d.length ≤ 2) →
      normalizeDateL raw.toList = raw.toList) ∧
    normalizeDateL "2025/08/27".toList = "27/08/2025".toList ∧
    normalizeDateL "15/01/2025".toList = "15/01/2025".toList := by
  refine ⟨?_, ?_, by decide, by decide⟩
  · intro y s1 mo s2 d hshape hy hy4 hs1 hmo hmo1 hmo2 hs2 hd hd1 hd2
    rw [hshape]
    simp only [normalizeDateL,
      matchY4_of_shape y s1 mo s2 d hy hy4 hs1 hmo hmo1 hmo2 hs2 hd hd1 hd2]
  · intro hne
    cases hm : matchY4 raw.toList with
    | none =>
      have hm2 : matchY4 raw.data = none := hm
      simp [normalizeDateL, hm2]
    | some r =>
      obtain ⟨y, mo, d⟩ := r
      obtain ⟨s1, s2, r5, hl, hy, hy4, hs1, hmo, hmo1, hmo2, hs2, hd, hd1, hd2, hde⟩ :=
        matchY4_some raw.toList y mo d hm
      have hr5 : r5 = [] := by
        have h2 : r5 = [] ∨ r5 = ['\n'] := by simpa [dollarEnd] using hde
        rcases h2 with h | h
        · exact h
        · exfalso
          apply hnl
          rw [hl, h]
          simp
      rw [hr5, List.append_nil] at hl
      exact absurd ⟨y, s1, mo, s2, d, hl, hy, hy4, hs1, hmo, hmo1, hmo2, hs2, hd, hd1, hd2⟩ hne

theorem c6_date_normalization_witness :
    normalizeDateL "2025/08/27".toList = "27/08/2025".toList ∧
    normalizeDateL "15/01/2025".toList = "15/01/2025".toList :=
  ⟨(c6_date_normalization "2025/08/27" (by decide)).2.2.1,
   (c6_date_normalization "15/01/2025" (by decide)).2.2.2⟩
